import Mathlib

/-!
Verification development for the `bones` agent (src/agent/agent.py and
src/agent/redis_store.py): a shallow embedding of the conversation state
machine (message repair, the tool-execution loop of a turn, the model
fallback controller, the session main loop) and of the shared overlay
store, with theorems settling the specification's testable properties.

JSON values are modelled opaquely by their serialized text (`JVal`);
`json.loads` is an oracle `jloads : String → Option JVal` where `none`
models a `json.JSONDecodeError` (the code then falls back to the empty
object).  Tool-result content in this code is only ever built from text
and image blocks, so `toolResult` content is typed over those leaf blocks.
-/

namespace Bones

/-- Opaque model of a parsed JSON value (its canonical serialized text). -/
abbrev JVal := String

/-- The empty JSON object, the fallback of every failed `json.loads`. -/
def emptyJ : JVal := "\x7b\x7d"

/-- Message roles of the Anthropic message protocol. -/
inductive Role where
  | user
  | assistant
deriving DecidableEq, Repr

/-- Leaf content blocks appearing inside a `tool_result` block: the code
builds tool-result content only from `text` and `image` blocks. -/
inductive LBlock where
  | text (s : String)
  | image (mediaType data : String)
deriving DecidableEq, Repr

/-- Content blocks of a conversation message. -/
inductive Block where
  | text (s : String)
  | image (mediaType data : String)
  | toolUse (id name : String) (input : JVal)
  | toolResult (toolUseId : String) (content : List LBlock) (isError : Bool)
deriving DecidableEq, Repr

/-- One conversation message: a role and an ordered block list. -/
structure Message where
  role : Role
  content : List Block
deriving DecidableEq, Repr

/-- The identifier of a `tool_use` block, if this block is one. -/
def toolUseIdOf (b : Block) : Option String :=
  match b with
  | .toolUse id _ _ => some id
  | _ => none

/-- The `tool_use_id` of a `tool_result` block, if this block is one. -/
def resultIdOf (b : Block) : Option String :=
  match b with
  | .toolResult tid _ _ => some tid
  | _ => none

/-- The `tool_use` identifiers occurring in a message, in block order
(mirrors the id-collection loop of `_repair_messages`). -/
def toolUseIds (m : Message) : List String :=
  m.content.filterMap toolUseIdOf

/-- The `tool_use_id`s of the `tool_result` blocks of a message, in block
order (the set `existing_result_ids` of `_repair_messages`, kept as a list
so multiplicities stay visible). -/
def resultIds (m : Message) : List String :=
  m.content.filterMap resultIdOf

/-- Whether `_repair_messages` has work to look at for this message: an
assistant message that carries at least one `tool_use` block. -/
def assistantNeeds (m : Message) : Bool :=
  m.role = Role.assistant && !(toolUseIds m).isEmpty

/-- The placeholder text of a synthesized repair result. -/
def noResultText : String := "[No result — interrupted]"

/-- The placeholder `tool_result` block `_repair_messages` synthesizes. -/
def repairBlock (tid : String) : Block :=
  Block.toolResult tid [LBlock.text noResultText] true

/-- The repair content spliced in for a list of missing identifiers. -/
def repairContent (ids : List String) : List Block :=
  ids.map repairBlock

/-- The fresh user message `_repair_messages` inserts when no user message
follows an assistant message with unmatched `tool_use` identifiers. -/
def repairUserMsg (ids : List String) : Message :=
  ⟨Role.user, repairContent ids⟩

/-- `missing_ids`: the `tool_use` identifiers of `m` with no matching
`tool_result` in the candidate following user message `next`. -/
def missingIds (m next : Message) : List String :=
  (toolUseIds m).filter fun tid => tid ∉ resultIds next

/-- The body of `_repair_messages`: processes the message at the cursor
(`m`) against the rest of the history.  The Python loop advances `i` by
one each iteration over the evolving list; a user message it has just
modified or inserted is revisited as the next cursor position and (being
a user message) left unchanged there, which this recursion inlines. -/
def repairAux (m : Message) : List Message → List Message
  | [] =>
    if assistantNeeds m then [m, repairUserMsg (toolUseIds m)] else [m]
  | next :: rest =>
    if assistantNeeds m then
      if next.role = Role.user then
        if (missingIds m next).isEmpty then
          m :: repairAux next rest
        else
          m :: repairAux ⟨Role.user, repairContent (missingIds m next) ++ next.content⟩ rest
      else
        m :: repairUserMsg (toolUseIds m) :: repairAux next rest
    else
      m :: repairAux next rest

/-- `_repair_messages`: ensure every assistant `tool_use` has a matching
`tool_result` in the immediately following user message, synthesizing
error placeholders for the missing identifiers. -/
def repairMessages : List Message → List Message
  | [] => []
  | m :: rest => repairAux m rest

/-- The pairing condition between a message and its immediate successor:
whenever the first is an assistant message with `tool_use` blocks, the
successor is a user message holding exactly one matching `tool_result`
per `tool_use` identifier. -/
def consistentAtB (m next : Message) : Bool :=
  if assistantNeeds m then
    next.role = Role.user &&
      (toolUseIds m).all fun tid => (resultIds next).count tid = 1
  else
    true

/-- The central consistency invariant of the conversation history: every
assistant `tool_use` identifier has exactly one matching `tool_result` in
the immediately following user message. -/
def consistentB : List Message → Bool
  | [] => true
  | [m] => !assistantNeeds m
  | m :: next :: rest => consistentAtB m next && consistentB (next :: rest)

/-- Identifier lists of a message are duplicate-free: its `tool_use` ids
are distinct and its `tool_result` ids are distinct.  (Histories built by
this program satisfy this; the repair pass cannot deduplicate a history
that violates it.) -/
abbrev nodupIds (m : Message) : Prop :=
  (toolUseIds m).Nodup ∧ (resultIds m).Nodup

/-! ## Transport messages

Inbound messages are read one JSON line at a time; the stream is a finite
list, and reading past its end models a `read_message()` returning `None`
(EOF).  The `init` message's context assembly (screenshot, element codes,
page URL, site apps, saved overlays, shared-overlay discovery) is
abstracted as the opaque block list it produces. -/

/-- The payload of an inbound `tool_result` message (`result` field); a
missing or empty `text`/`image_base64` is falsy in the code, modelled by
the empty string. -/
structure ResPayload where
  text : String
  imageBase64 : String
  mediaType : Option String
  isError : Bool
deriving DecidableEq, Repr

/-- Inbound line-protocol messages. -/
inductive InMsg where
  | initMsg (model : Option String) (ctx : List Block)
  | userMessage (text : String)
  | toolResultMsg (r : ResPayload)
  | cancelMsg
  | setModelMsg (model : Option String)
  | otherMsg (tag : String)
deriving DecidableEq, Repr

/-- Outbound line-protocol messages. -/
inductive OutMsg where
  | streamingStart
  | streamingEnd
  | doneMsg
  | statusMsg (text : String)
  | textDelta (text : String)
  | assistantMessage (text : String) (source : Option String)
  | toolUseMsg (id name : String) (input : JVal) (silent : Bool)
  | errorMsg (message : String)
  | suggestionsMsg
deriving DecidableEq, Repr

/-- The event trace of a run: outbound writes, inbound reads, and the
instrumentation marks put around each processed user turn. -/
inductive Event where
  | outEv (m : OutMsg)
  | inEv (m : InMsg)
  | turnStart (text : String)
  | turnEnd
deriving DecidableEq, Repr

/-- What `_read_tool_result` can return: a tool result or a cancel. -/
inductive TermMsg where
  | result (r : ResPayload)
  | cancelled
deriving DecidableEq, Repr

/-- Result of `_read_tool_result`: the terminating message (`none` = EOF),
the remaining inbound stream, the pending-user-message queue, and the
trace of reads performed. -/
structure ReadRes where
  term : Option TermMsg
  inbox : List InMsg
  pend : List String
  evs : List Event
deriving DecidableEq, Repr

/-- `_read_tool_result`: read inbound messages until a `tool_result` or
`cancel` arrives; buffer `user_message`s into the pending queue; drop
(log) anything else; EOF returns `none`. -/
def readToolResult : List InMsg → List String → ReadRes
  | [], pend => ⟨none, [], pend, []⟩
  | m :: rest, pend =>
    match m with
    | InMsg.toolResultMsg r => ⟨some (TermMsg.result r), rest, pend, [Event.inEv m]⟩
    | InMsg.cancelMsg => ⟨some TermMsg.cancelled, rest, pend, [Event.inEv m]⟩
    | InMsg.userMessage t =>
      let R := readToolResult rest (pend ++ [t])
      ⟨R.term, R.inbox, R.pend, Event.inEv (InMsg.userMessage t) :: R.evs⟩
    | other =>
      let R := readToolResult rest pend
      ⟨R.term, R.inbox, R.pend, Event.inEv other :: R.evs⟩

/-! ## Tool execution (the batch loop of `run_turn`) -/

/-- A streamed tool call: identifier, name, and the accumulated
`partial_json` input fragments. -/
structure ToolUseAcc where
  id : String
  name : String
  inputJson : String
deriving DecidableEq, Repr

/-- The set `PYTHON_TOOLS` of locally-executed tools. -/
def PYTHON_TOOLS : List String :=
  ["publish_overlay", "search_shared_overlays", "download_shared_overlay"]

/-- A tool call executed by the host rather than in-process. -/
def isRemoteTU (tu : ToolUseAcc) : Bool :=
  !(PYTHON_TOOLS.contains tu.name)

/-- Result of `_execute_python_tool`.  The overlay-store side of the three
local tools (Redis and the silent-tool sub-protocol they use for host file
I/O) is external to the turn algorithm and abstracted as this oracle's
output; the store itself is modelled separately below. -/
structure PyRes where
  text : String
  isError : Bool
  source : Option String

/-- External oracles of a turn: `json.loads`, the local tool executor, the
random thinking status text, and `_tool_status_message`. -/
structure AgentExt where
  jloads : String → Option JVal
  pyExec : String → JVal → PyRes
  statusText : String
  toolStatus : String → String

/-- `json.loads(tu["input_json"]) if ... else {}` with the
`JSONDecodeError → {}` fallback. -/
def parsedInput (ext : AgentExt) (tu : ToolUseAcc) : JVal :=
  (ext.jloads tu.inputJson).getD emptyJ

/-- The `[Cancelled]` error tool result minted on short-circuit. -/
def cancBlock (tid : String) : Block :=
  Block.toolResult tid [LBlock.text "[Cancelled]"] true

/-- The `[Connection lost]` error tool result minted on EOF mid-wait. -/
def connLostBlock (tid : String) : Block :=
  Block.toolResult tid [LBlock.text "[Connection lost]"] true

/-- The tool-result content built from a host result payload: a text
block if text is present, an image block if present, else `(no output)`. -/
def buildResultContent (r : ResPayload) : List LBlock :=
  let c := (if r.text ≠ "" then [LBlock.text r.text] else [])
        ++ (if r.imageBase64 ≠ "" then
              [LBlock.image (r.mediaType.getD "image/png") r.imageBase64] else [])
  if c.isEmpty then [LBlock.text "(no output)"] else c

/-- State threaded through the batch loop: the inbound stream, the
pending-user-message queue, and the `cancelled`/`aborted` flags. -/
structure ToolSt where
  inbox : List InMsg
  pend : List String
  cancelled : Bool
  aborted : Bool
deriving DecidableEq, Repr

/-- The outbound messages a locally-executed (`PYTHON_TOOLS`) call emits:
the redis-sourced `assistant_message`, when the result carries that tag. -/
def pySegEvents (ext : AgentExt) (tu : ToolUseAcc) : List Event :=
  if (ext.pyExec tu.name (parsedInput ext tu)).source = some "redis" then
    [Event.outEv (OutMsg.assistantMessage (ext.pyExec tu.name (parsedInput ext tu)).text
      (some "redis"))]
  else []

/-- The `tool_result` block committed for a locally-executed call. -/
def pyResultBlock (ext : AgentExt) (tu : ToolUseAcc) : Block :=
  Block.toolResult tu.id
    (if (ext.pyExec tu.name (parsedInput ext tu)).text ≠ "" then
      [LBlock.text (ext.pyExec tu.name (parsedInput ext tu)).text]
     else [LBlock.text "(no output)"])
    (ext.pyExec tu.name (parsedInput ext tu)).isError

/-- The `tool_use` envelope written to the host for one tool call. -/
def envEvent (ext : AgentExt) (tu : ToolUseAcc) : Event :=
  Event.outEv (OutMsg.toolUseMsg tu.id tu.name (parsedInput ext tu) false)

/-- One iteration of the batch loop of `run_turn` (lines 1082–1172): the
events it emits (outbound envelope and the reads resolving it), the
`tool_result` block it appends, and the updated state. -/
def execTool (ext : AgentExt) (tu : ToolUseAcc) (st : ToolSt) :
    List Event × Block × ToolSt :=
  if st.cancelled || st.aborted then
    ([], cancBlock tu.id, st)
  else
    if PYTHON_TOOLS.contains tu.name then
      (pySegEvents ext tu, pyResultBlock ext tu, st)
    else
      let R := readToolResult st.inbox st.pend
      match R.term with
      | none =>
        (envEvent ext tu :: R.evs,
         connLostBlock tu.id, ⟨R.inbox, R.pend, st.cancelled, true⟩)
      | some TermMsg.cancelled =>
        (envEvent ext tu :: R.evs,
         cancBlock tu.id, ⟨R.inbox, R.pend, true, st.aborted⟩)
      | some (TermMsg.result r) =>
        (envEvent ext tu :: R.evs,
         Block.toolResult tu.id (buildResultContent r) r.isError,
         ⟨R.inbox, R.pend, st.cancelled, st.aborted⟩)

/-- Result of the whole batch loop: one event segment and one
`tool_result` block per requested tool call, in request order. -/
structure ExecRes where
  segs : List (List Event)
  results : List Block
  tst : ToolSt
deriving DecidableEq, Repr

/-- The batch loop of `run_turn`: execute the requested tool calls
strictly sequentially, in request order. -/
def execTools (ext : AgentExt) : List ToolUseAcc → ToolSt → ExecRes
  | [], st => ⟨[], [], st⟩
  | tu :: rest, st =>
    let step := execTool ext tu st
    let R := execTools ext rest step.2.2
    ⟨step.1 :: R.segs, step.2.1 :: R.results, R.tst⟩

/-! ## Model fallback controller -/

/-- First model of the fallback chain (also the default model of `main`). -/
def modelOpus46 : String := "claude-opus-4-6"

/-- Second model of the fallback chain. -/
def modelOpus45 : String := "claude-opus-4-5"

/-- Last model of the fallback chain. -/
def modelSonnet46 : String := "claude-sonnet-4-6"

/-- `Agent.FALLBACK_MODELS`, the ordered priority chain. -/
def fallbackModels : List String := [modelOpus46, modelOpus45, modelSonnet46]

/-- Whether the first character list starts with the second. -/
def listStartsWith : List Char → List Char → Bool
  | _, [] => true
  | [], _ :: _ => false
  | a :: as, b :: bs => a == b && listStartsWith as bs

/-- `s.startswith(p)` on strings (via their character lists). -/
def strStartsWith (s p : String) : Bool :=
  listStartsWith s.data p.data

/-- Whether `needle` occurs as a substring of `hay` (character lists). -/
def listHasSub (needle : List Char) : List Char → Bool
  | [] => needle.isEmpty
  | c :: rest =>
    (listStartsWith (c :: rest) needle) || listHasSub needle rest

/-- A provider error: the SDK status code when the exception carries one,
and its `str(e)` text. -/
structure ApiErr where
  statusCode : Option Int
  text : String
deriving DecidableEq, Repr

/-- `_is_overloaded`: status code 429/529, or the lowercased error text
contains `overloaded` or `rate_limit` (lowercasing via the character
list, mirroring `str(e).lower()`). -/
def isOverloadedErr (e : ApiErr) : Bool :=
  if e.statusCode = some 429 ∨ e.statusCode = some 529 then true
  else
    listHasSub ("overloaded".data) (e.text.data.map Char.toLower) ||
      listHasSub ("rate_limit".data) (e.text.data.map Char.toLower)

/-- `_try_fallback_model`: index the current model in the chain
(`ValueError` → −1), move to the next entry if one exists.  Returns the
substituted model; `none` means no further fallback. -/
def tryFallbackModel (m : String) : Option String :=
  match fallbackModels.indexOf? m with
  | some i =>
    if i + 1 < fallbackModels.length then some (fallbackModels.getD (i + 1) "")
    else none
  | none =>
    if 0 < fallbackModels.length then some (fallbackModels.getD 0 "") else none

/-- The synthetic notification text sent when the fallback substitutes a
model. -/
def switchNote (oldM newM : String) : String :=
  "*" ++ oldM ++ " is busy, switching to " ++ newM ++ "...*\n\n"

/-! ## The turn algorithm (`run_turn`)

The provider is an oracle script: the list of responses the streaming API
returns, one per call, each either an assembled response (text, the tool
calls in arrival order, the stop reason) or an exception carrying the
text fragments streamed before it was raised.  The mid-stream
cancellation check of the Python loop is dead code in this single-threaded
program (no read happens while streaming, so `self.cancelled` cannot
change there) and is not modelled. -/

/-- A provider response to one streaming call. -/
inductive StopReason where
  | toolUse
  | endTurn
  | otherStop
deriving DecidableEq, Repr

/-- One scripted outcome of `client.messages.stream`. -/
inductive ModelResp where
  | ok (text : String) (tools : List ToolUseAcc) (stop : StopReason)
  | err (frags : List String) (e : ApiErr)
deriving DecidableEq, Repr

/-- The `Agent` object's state: active model, conversation, cancellation
flag, pending-user-message queue, and stored init context. -/
structure AgentSt where
  model : String
  msgs : List Message
  cancelled : Bool
  pend : List String
  initCtx : Option (List Block)
deriving DecidableEq, Repr

/-- Result of a turn (or of the drain loop): the agent state, what is left
of the inbound stream and of the provider script, and the event trace. -/
structure TurnRes where
  st : AgentSt
  inbox : List InMsg
  script : List ModelResp
  evs : List Event
deriving DecidableEq, Repr

/-- The `tool_use` block committed to the assistant message for one
streamed tool call. -/
def toolUseBlockOf (ext : AgentExt) (tu : ToolUseAcc) : Block :=
  Block.toolUse tu.id tu.name (parsedInput ext tu)

/-- `max_iterations` of `run_turn`. -/
def maxIterations : Nat := 20

/-- The loop body of `run_turn`, one recursive call per `for` iteration
(a fallback retry's `continue` also consumes an iteration). -/
def runTurnAux (ext : AgentExt) :
    Nat → AgentSt → List InMsg → List ModelResp → TurnRes
  | 0, st, inbox, script => ⟨st, inbox, script, [Event.outEv OutMsg.doneMsg]⟩
  | fuel + 1, st, inbox, script =>
    if st.cancelled then ⟨st, inbox, script, []⟩
    else
      let st1 : AgentSt := { st with msgs := repairMessages st.msgs }
      let evs0 : List Event :=
        [Event.outEv OutMsg.streamingStart, Event.outEv (OutMsg.statusMsg ext.statusText)]
      match script with
      | [] =>
        -- Modelling artifact: the response script is exhausted; treated as a
        -- terminal non-overload provider error (unreachable under the
        -- theorems' hypotheses, which always supply enough responses).
        ⟨st1, inbox, [],
         evs0 ++ [Event.outEv OutMsg.streamingEnd,
                  Event.outEv (OutMsg.errorMsg "model unavailable")]⟩
      | ModelResp.err frags e :: scriptRest =>
        let evs1 := evs0 ++ frags.map fun t => Event.outEv (OutMsg.textDelta t)
        match (if isOverloadedErr e then tryFallbackModel st1.model else none) with
        | some m2 =>
          let evs2 := evs1 ++
            [Event.outEv (OutMsg.textDelta (switchNote st1.model m2)),
             Event.outEv OutMsg.streamingEnd, Event.outEv OutMsg.streamingStart]
          let R := runTurnAux ext fuel { st1 with model := m2 } inbox scriptRest
          ⟨R.st, R.inbox, R.script, evs2 ++ R.evs⟩
        | none =>
          ⟨st1, inbox, scriptRest,
           evs1 ++ [Event.outEv OutMsg.streamingEnd, Event.outEv (OutMsg.errorMsg e.text)]⟩
      | ModelResp.ok text tools stop :: scriptRest =>
        let evs1 := evs0
          ++ (if text ≠ "" then [Event.outEv (OutMsg.textDelta text)] else [])
          ++ tools.map fun tu => Event.outEv (OutMsg.statusMsg (ext.toolStatus tu.name))
        let evs2 := evs1 ++ [Event.outEv OutMsg.streamingEnd]
          ++ (if text ≠ "" then [Event.outEv (OutMsg.assistantMessage text none)] else [])
        let acontent := (if text ≠ "" then [Block.text text] else [])
          ++ tools.map (toolUseBlockOf ext)
        let msgs1 := if acontent = [] then st1.msgs
                     else st1.msgs ++ [⟨Role.assistant, acontent⟩]
        if stop = StopReason.toolUse ∧ tools ≠ [] then
          let E := execTools ext tools ⟨inbox, st1.pend, st1.cancelled, false⟩
          let msgs2 := msgs1 ++ [⟨Role.user, E.results⟩]
          let st2 : AgentSt :=
            { st1 with msgs := msgs2, cancelled := E.tst.cancelled, pend := E.tst.pend }
          if E.tst.cancelled || E.tst.aborted then
            ⟨st2, E.tst.inbox, scriptRest,
             evs2 ++ E.segs.flatten ++ [Event.outEv OutMsg.doneMsg]⟩
          else
            let R := runTurnAux ext fuel st2 E.tst.inbox scriptRest
            ⟨R.st, R.inbox, R.script, evs2 ++ E.segs.flatten ++ R.evs⟩
        else
          ⟨{ st1 with msgs := msgs1 }, inbox, scriptRest,
           evs2 ++ [Event.outEv OutMsg.doneMsg]⟩

/-- `run_turn`. -/
def runTurn (ext : AgentExt) (st : AgentSt) (inbox : List InMsg)
    (script : List ModelResp) : TurnRes :=
  runTurnAux ext maxIterations st inbox script

/-- `handle_user_message`: append the user message (prefixed by the stored
init context if this is the first message) and run a turn. -/
def handleUserMessage (ext : AgentExt) (st : AgentSt) (inbox : List InMsg)
    (script : List ModelResp) (text : String) : TurnRes :=
  let content : List Block :=
    match st.initCtx with
    | some ctx =>
      ctx ++ [Block.text ("[Screenshot of current window above]\n\nUser request: " ++ text)]
    | none => [Block.text text]
  runTurn ext { st with msgs := st.msgs ++ [⟨Role.user, content⟩], initCtx := none }
    inbox script

/-! ## Session controller (`main`)

The drain loop (`while agent._pending_user_messages`) and the outer read
loop are given explicit fuel; the wrappers supply fuel sufficient for any
input (each drain iteration pops one queued message and buffers at most
one message per inbound message it consumes; each outer iteration consumes
at least one inbound message), which the adequacy lemmas below establish. -/

/-- The drain loop: pop and process buffered user messages until none
remain (fuelled body). -/
def drainAux (ext : AgentExt) :
    Nat → AgentSt → List InMsg → List ModelResp → TurnRes
  | 0, st, inbox, script => ⟨st, inbox, script, []⟩
  | fuel + 1, st, inbox, script =>
    match st.pend with
    | [] => ⟨st, inbox, script, []⟩
    | t :: rest =>
      let T := handleUserMessage ext { st with pend := rest, cancelled := false }
        inbox script t
      let D := drainAux ext fuel T.st T.inbox T.script
      ⟨D.st, D.inbox, D.script, (Event.turnStart t :: T.evs) ++ (Event.turnEnd :: D.evs)⟩

/-- The drain loop with adequate fuel. -/
def drainPending (ext : AgentExt) (st : AgentSt) (inbox : List InMsg)
    (script : List ModelResp) : TurnRes :=
  drainAux ext (st.pend.length + inbox.length) st inbox script

/-- A fresh `Agent(...)` as built by the `init` handler. -/
def freshAgent (model : String) (ctx : List Block) : AgentSt :=
  ⟨model, [], false, [], some ctx⟩

/-- The body of `main`'s `while True` read loop (fuelled). -/
def mainLoopAux (ext : AgentExt) :
    Nat → List InMsg → List ModelResp → Option AgentSt → List Event
  | 0, _, _, _ => []
  | fuel + 1, inbox, script, ag =>
    match inbox with
    | [] => []
    | m :: rest =>
      match m with
      | InMsg.initMsg modelO ctx =>
        let a := freshAgent (modelO.getD modelOpus46) ctx
        Event.outEv OutMsg.suggestionsMsg :: mainLoopAux ext fuel rest script (some a)
      | InMsg.userMessage t =>
        match ag with
        | none =>
          Event.outEv (OutMsg.errorMsg "Agent not initialized")
            :: mainLoopAux ext fuel rest script none
        | some a =>
          let T := handleUserMessage ext { a with cancelled := false } rest script t
          let D := drainPending ext T.st T.inbox T.script
          (Event.turnStart t :: T.evs) ++ (Event.turnEnd :: D.evs)
            ++ mainLoopAux ext fuel D.inbox D.script (some D.st)
      | InMsg.setModelMsg modelO =>
        match ag with
        | some a => mainLoopAux ext fuel rest script (some { a with model := modelO.getD a.model })
        | none => mainLoopAux ext fuel rest script none
      | InMsg.cancelMsg =>
        match ag with
        | some a => mainLoopAux ext fuel rest script (some { a with cancelled := true })
        | none => mainLoopAux ext fuel rest script none
      | _ => mainLoopAux ext fuel rest script ag

/-- `main`: read inbound messages to EOF, routing each to the session. -/
def mainLoop (ext : AgentExt) (inbox : List InMsg) (script : List ModelResp)
    (ag : Option AgentSt) : List Event :=
  mainLoopAux ext inbox.length inbox script ag

/-! ## Trace observations -/

/-- The texts of the `user_message`s of an inbound stream, in order. -/
def userTexts (l : List InMsg) : List String :=
  l.filterMap fun m =>
    match m with
    | InMsg.userMessage t => some t
    | _ => none

/-- The texts of the processed-turn marks of a trace, in order. -/
def turnStartTexts (evs : List Event) : List String :=
  evs.filterMap fun e =>
    match e with
    | Event.turnStart t => some t
    | _ => none

/-- A trace with no turn marks (everything a turn itself emits). -/
def noMarks (evs : List Event) : Bool :=
  evs.all fun e =>
    match e with
    | Event.turnStart _ => false
    | Event.turnEnd => false
    | _ => true

/-- Turn marks open and close strictly alternately (no nesting, no stray
close); `opened` is whether a turn is currently open. -/
def wellNestedAux : List Event → Bool → Bool
  | [], opened => !opened
  | Event.turnStart _ :: t, opened => if opened then false else wellNestedAux t true
  | Event.turnEnd :: t, opened => if opened then wellNestedAux t false else false
  | _ :: t, opened => wellNestedAux t opened

/-- Turns are processed one at a time: the trace's turn marks are balanced
and never nested. -/
def wellNested (evs : List Event) : Bool :=
  wellNestedAux evs false

/-- The identifiers of the `tool_use` envelopes written to the host, in
trace order. -/
def envIds (evs : List Event) : List String :=
  evs.filterMap fun e =>
    match e with
    | Event.outEv (OutMsg.toolUseMsg id _ _ _) => some id
    | _ => none

/-- The `tool_use_id` a committed `tool_result` block answers. -/
def resultBlockId (b : Block) : String :=
  match b with
  | Block.toolResult tid _ _ => tid
  | _ => ""

/-- The `is_error` flag of a committed `tool_result` block. -/
def resultBlockIsError (b : Block) : Bool :=
  match b with
  | Block.toolResult _ _ e => e
  | _ => false

/-- No `cancel` message in the stream. -/
def noCancelIn (l : List InMsg) : Bool :=
  l.all fun m =>
    match m with
    | InMsg.cancelMsg => false
    | _ => true

/-- No message that would terminate a tool wait (`tool_result`/`cancel`). -/
def noTerminalIn (l : List InMsg) : Bool :=
  l.all fun m =>
    match m with
    | InMsg.toolResultMsg _ => false
    | InMsg.cancelMsg => false
    | _ => true

/-- How many `tool_result` messages the stream still holds. -/
def resultCount (l : List InMsg) : Nat :=
  (l.filter fun m =>
    match m with
    | InMsg.toolResultMsg _ => true
    | _ => false).length

/-- How many of a batch's tool calls are host-executed. -/
def remoteCount (batch : List ToolUseAcc) : Nat :=
  (batch.filter isRemoteTU).length

/-- Whether a trace contains an outbound `error` message. -/
def hasErrorEv (evs : List Event) : Bool :=
  evs.any fun e =>
    match e with
    | Event.outEv (OutMsg.errorMsg _) => true
    | _ => false

/-- The per-call segment contract of the batch loop: a host-executed call's
segment is its own `tool_use` envelope followed only by inbound reads, the
last of which is the `tool_result` that resolves it (so no later call's
envelope can precede it), and the committed block carries that payload; a
locally-executed call's segment holds no envelope and no read. -/
def segSpec (ext : AgentExt) (tu : ToolUseAcc) (sr : List Event × Block) : Prop :=
  if isRemoteTU tu then
    ∃ c r, noTerminalIn c = true ∧
      sr.1 = envEvent ext tu :: (c ++ [InMsg.toolResultMsg r]).map Event.inEv ∧
      sr.2 = Block.toolResult tu.id (buildResultContent r) r.isError
  else
    sr.1 = pySegEvents ext tu ∧ sr.2 = pyResultBlock ext tu

/-! ## Shared overlay store (`redis_store.py`)

The Redis engine and the Voyage embedding provider are external
collaborators; their boundary behaviour is taken from §6 of the spec (the
vector index wire contract and the embedding provider contract).  Scores
are rationals: the ordering and exclusion properties claimed are generic
in the numeric type, and the engine's cosine distance is an oracle. -/

/-- `EMBEDDING_DIMS`. -/
def EMBEDDING_DIMS : Nat := 512

/-- `KEY_PREFIX`. -/
def keyPref : String := "bones:overlay:"

/-- The overlay dict handed to `publish`: `id`, `name`, `html` are
required, the rest read with `.get` defaults. -/
structure ROverlay where
  id : String
  name : String
  description : Option String
  html : String
  width : Option Int
  height : Option Int
  position : Option String
deriving DecidableEq, Repr

/-- The JSON document `publish` writes. -/
structure StoredDoc where
  id : String
  name : String
  description : String
  domain : String
  html : String
  width : Int
  height : Int
  position : String
  tags : List String
  createdAt : String
  embedding : List ℚ
deriving DecidableEq, Repr

/-- External oracles of the store: document and query embedding calls
(`none` = the request raised), the engine's cosine distance, and the
publish timestamp `time.strftime(...)`. -/
structure StoreEnv where
  embedDoc : String → Option (List ℚ)
  embedQuery : String → Option (List ℚ)
  dist : List ℚ → List ℚ → ℚ
  now : String

/-- `_embed_text_string`: the canonical text embedded for an overlay. -/
def embedTextString (name description domain : String) (tags : List String) : String :=
  name ++ ". " ++ description ++ ". domain:" ++ domain ++ ". " ++ String.intercalate ", " tags

/-- The document `publish` assembles: embedding from the provider, or the
zero vector when the embedding call raised. -/
def buildDoc (env : StoreEnv) (ov : ROverlay) (domain : String)
    (tags : List String) : StoredDoc :=
  let etext := embedTextString ov.name (ov.description.getD "") domain tags
  let embedding := (env.embedDoc etext).getD (List.replicate EMBEDDING_DIMS 0)
  ⟨ov.id, ov.name, ov.description.getD "", domain, ov.html, ov.width.getD 400,
   ov.height.getD 300, ov.position.getD "top-right", tags, env.now, embedding⟩

/-- The Redis keyspace, in index order. -/
abbrev RedisSt := List (String × StoredDoc)

/-- Modelled from the spec: `JSON.SET key $ doc` — §6 key-value overwrite
semantics (replace in place when the key exists, else append; the index
order over documents is the store order). -/
def setKey : RedisSt → String → StoredDoc → RedisSt
  | [], k, d => [(k, d)]
  | (k2, d2) :: t, k, d => if k2 = k then (k, d) :: t else (k2, d2) :: setKey t k d

/-- Modelled from the spec: `JSON.GET key` — §6 lookup by key. -/
def findKey : RedisSt → String → Option StoredDoc
  | [], _ => none
  | (k2, d) :: t, k => if k2 = k then some d else findKey t k

/-- The key `publish` writes: `KEY_PREFIX + domain + ":" + overlay_id`. -/
def publishKey (domain oid : String) : String :=
  keyPref ++ domain ++ ":" ++ oid

/-- `SharedOverlayStore.publish`: build the document (zero embedding on an
embedding failure) and write it under its key. -/
def publish (env : StoreEnv) (st : RedisSt) (ov : ROverlay) (domain : String)
    (tags : List String) : String × RedisSt :=
  let key := publishKey domain ov.id
  (key, setKey st key (buildDoc env ov domain tags))

/-- A `search_exact` summary row (the `RETURN` fields plus `_key`). -/
structure ExactHit where
  key : String
  id : String
  name : String
  description : String
  domain : String
  position : String
deriving DecidableEq, Repr

/-- A `search_similar` summary row (adds the KNN distance `score`). -/
structure SimHit where
  key : String
  id : String
  name : String
  description : String
  domain : String
  position : String
  score : ℚ
deriving DecidableEq, Repr

/-- The summary row built from a stored entry (the `RETURN` fields plus
`_key`). -/
def exactHitOf (kd : String × StoredDoc) : ExactHit :=
  ⟨kd.1, kd.2.id, kd.2.name, kd.2.description, kd.2.domain, kd.2.position⟩

/-- `SharedOverlayStore.search_exact`: modelled from the spec — §6
`FT.SEARCH` with a `@domain:{...}` TAG filter over the documents under the
index prefix (tag match = domain equality after escaping), index order,
`LIMIT 0 limit`. -/
def searchExact (st : RedisSt) (domain : String) (limit : Nat) : List ExactHit :=
  ((st.filter fun kd => strStartsWith kd.1 keyPref && kd.2.domain == domain).take limit).map
    exactHitOf

/-- Insert a hit into a score-ascending list, keeping it sorted. -/
def insertByScore (x : SimHit) : List SimHit → List SimHit
  | [] => [x]
  | y :: t => if x.score ≤ y.score then x :: y :: t else y :: insertByScore x t

/-- Sort hits ascending by score (the engine's `SORTBY score`). -/
def sortByScore : List SimHit → List SimHit
  | [] => []
  | x :: t => insertByScore x (sortByScore t)

/-- Python truthiness of the `exclude_domain` argument: `if exclude_domain:`
is false for `None` and for the empty string. -/
def truthyOpt (s : Option String) : Bool :=
  match s with
  | some v => !(v == "")
  | none => false

/-- `SharedOverlayStore.search_similar`: embed the query in query mode
(return `[]` when the embedding call raises), then — modelled from the
spec, §6 — run a KNN query by cosine distance over all published
embeddings, with a negated `@domain` filter only when `exclude_domain` is
truthy, ascending by the distance score, `LIMIT 0 limit`. -/
def searchSimilar (env : StoreEnv) (st : RedisSt) (queryText : String)
    (excludeDomain : Option String) (limit : Nat) : List SimHit :=
  match env.embedQuery queryText with
  | none => []
  | some vec =>
    let base := st.filter fun kd => strStartsWith kd.1 keyPref
    let filtered :=
      if truthyOpt excludeDomain then
        base.filter fun kd => !(kd.2.domain == excludeDomain.getD "")
      else base
    let scored := filtered.map fun kd =>
      SimHit.mk kd.1 kd.2.id kd.2.name kd.2.description kd.2.domain kd.2.position
        (env.dist vec kd.2.embedding)
    (sortByScore scored).take limit

/-! ## Concrete example inputs (used by counterexamples and witnesses) -/

/-- A corrupted history whose following user message already holds two
`tool_result`s for the same identifier. -/
def dupHistory : List Message :=
  [⟨Role.assistant, [Block.toolUse "a" "click" emptyJ]⟩,
   ⟨Role.user, [Block.toolResult "a" [] false, Block.toolResult "a" [] false]⟩]

/-- A history with one orphaned assistant `tool_use` (the repair pass must
insert a matching placeholder result). -/
def orphanHistory : List Message :=
  [⟨Role.assistant, [Block.toolUse "t1" "click_code" emptyJ]⟩]

/-- A store environment whose embedding calls always fail and whose clock
is fixed. -/
def exEnv : StoreEnv :=
  ⟨fun _ => none, fun _ => none, fun _ _ => 0, "2026-01-01T00:00:00Z"⟩

/-- A concrete overlay. -/
def exOv1 : ROverlay :=
  ⟨"nav-helper", "Nav helper", some "first version", "<nav>", none, none, none⟩

/-- A second overlay with the same id (a republish). -/
def exOv2 : ROverlay :=
  ⟨"nav-helper", "Nav helper v2", some "second version", "<nav>", some 500, none, none⟩

/-- The store after publishing `exOv1` to `github.com` on an empty store. -/
def exStore7a : RedisSt := (publish exEnv [] exOv1 "github.com" []).2

/-- The key of the republish of `exOv2` over `exStore7a`. -/
def exKey7 : String := (publish exEnv exStore7a exOv2 "github.com" ["nav"]).1

/-- The store after the republish. -/
def exStore7 : RedisSt := (publish exEnv exStore7a exOv2 "github.com" ["nav"]).2

/-- A store environment whose embedding calls always succeed with the
empty vector and whose distance oracle is constantly zero. -/
def exEnv8 : StoreEnv :=
  ⟨fun _ => some [], fun _ => some [], fun _ _ => 0, "2026-01-01T00:00:00Z"⟩

/-- A stored document whose domain is the empty string. -/
def exDoc8 : StoredDoc :=
  ⟨"i", "n", "d", "", "<div>", 400, 300, "top-right", [], "2026-01-01T00:00:00Z", []⟩

/-- A store holding one document published under the empty domain. -/
def exStore8 : RedisSt := [(publishKey "" "i", exDoc8)]

/-- The similarity hit the empty-domain document yields under `exEnv8`. -/
def exHit8 : SimHit := ⟨publishKey "" "i", "i", "n", "d", "", "top-right", 0⟩

/-- A concrete oracle bundle for the turn algorithm: every `json.loads`
fails (falling back to the empty object), local tools return an empty
success, fixed status texts. -/
def exExt : AgentExt :=
  ⟨fun _ => none, fun _ _ => ⟨"", false, none⟩, "Thinking...", fun _ => "Working..."⟩

/-- Concrete host-executed tool calls. -/
def exToolA : ToolUseAcc := ⟨"t1", "take_screenshot", ""⟩

/-- Second concrete host-executed tool call. -/
def exToolB : ToolUseAcc := ⟨"t2", "click", ""⟩

/-- Third concrete host-executed tool call. -/
def exToolC : ToolUseAcc := ⟨"t3", "type_text", ""⟩

/-- A concrete successful host tool-result payload. -/
def exRes : ResPayload := ⟨"clicked", "", none, false⟩

/-! ## Lemmas: the repair pass -/

theorem repairAux_exists_tail (m : Message) (l : List Message) :
    ∃ t, repairAux m l = m :: t := by
  cases l with
  | nil =>
    unfold repairAux
    split_ifs <;> exact ⟨_, rfl⟩
  | cons next rest =>
    unfold repairAux
    split_ifs <;> exact ⟨_, rfl⟩

theorem consistentB_cons_cons (a b : Message) (t : List Message) :
    consistentB (a :: b :: t) = (consistentAtB a b && consistentB (b :: t)) := rfl

theorem consistentB_cons_repairAux (m next : Message) (rest : List Message) :
    consistentB (m :: repairAux next rest) =
      (consistentAtB m next && consistentB (repairAux next rest)) := by
  obtain ⟨t, ht⟩ := repairAux_exists_tail next rest
  rw [ht, consistentB_cons_cons]

theorem resultIds_repairUserMsg (ids : List String) :
    resultIds (repairUserMsg ids) = ids := by
  induction ids with
  | nil => rfl
  | cons a t ih =>
    simpa [repairUserMsg, resultIds, repairContent, repairBlock, resultIdOf] using ih

theorem assistantNeeds_user (c : List Block) :
    assistantNeeds ⟨Role.user, c⟩ = false := by
  simp [assistantNeeds]

theorem consistentAtB_of_not (m next : Message) (h : assistantNeeds m = false) :
    consistentAtB m next = true := by
  simp [consistentAtB, h]

theorem consistentAtB_user_counts (m next : Message)
    (hu : next.role = Role.user)
    (hc : ∀ tid ∈ toolUseIds m, (resultIds next).count tid = 1) :
    consistentAtB m next = true := by
  by_cases h : assistantNeeds m = true
  · simp [consistentAtB, h, hu]
    exact hc
  · simp only [Bool.not_eq_true] at h
    exact consistentAtB_of_not m next h

theorem consistentAtB_elim (m next : Message)
    (h : assistantNeeds m = true) (hc : consistentAtB m next = true) :
    next.role = Role.user ∧ ∀ tid ∈ toolUseIds m, (resultIds next).count tid = 1 := by
  simp [consistentAtB, h] at hc
  exact hc

theorem resultIds_prepend_repair (ids : List String) (next : Message) :
    resultIds ⟨Role.user, repairContent ids ++ next.content⟩ =
      ids ++ resultIds next := by
  simp only [resultIds, List.filterMap_append]
  congr 1
  exact resultIds_repairUserMsg ids

theorem toolUseIds_prepend_repair (ids : List String) (next : Message) :
    toolUseIds ⟨Role.user, repairContent ids ++ next.content⟩ = toolUseIds next := by
  simp only [toolUseIds, List.filterMap_append]
  have h : List.filterMap toolUseIdOf (repairContent ids) = [] := by
    simp [repairContent, repairBlock, toolUseIdOf]
  simp [h]

theorem consistentB_singleton (m : Message) :
    consistentB [m] = !assistantNeeds m := rfl

theorem mem_missingIds (m next : Message) (tid : String) :
    tid ∈ missingIds m next ↔ tid ∈ toolUseIds m ∧ tid ∉ resultIds next := by
  simp [missingIds, List.mem_filter]

theorem missingIds_empty_iff (m next : Message) :
    (missingIds m next).isEmpty = true ↔ ∀ tid ∈ toolUseIds m, tid ∈ resultIds next := by
  rw [List.isEmpty_iff]
  unfold missingIds
  rw [List.filter_eq_nil_iff]
  constructor
  · intro h tid htid
    have := h tid htid
    simpa using this
  · intro h tid htid
    simp [h tid htid]

theorem consistentAtB_repairUserMsg (m : Message)
    (hm : (toolUseIds m).Nodup) :
    consistentAtB m (repairUserMsg (toolUseIds m)) = true := by
  refine consistentAtB_user_counts m _ rfl ?_
  intro tid htid
  rw [resultIds_repairUserMsg]
  exact List.count_eq_one_of_mem hm htid

theorem consistentB_repairAux :
    ∀ (l : List Message) (m : Message), nodupIds m → (∀ x ∈ l, nodupIds x) →
      consistentB (repairAux m l) = true := by
  intro l
  induction l with
  | nil =>
    intro m hm _
    by_cases h : assistantNeeds m = true
    · have hstep : repairAux m [] = [m, repairUserMsg (toolUseIds m)] := by
        unfold repairAux
        simp [h]
      have hlast : consistentB [repairUserMsg (toolUseIds m)] = true := by
        rw [consistentB_singleton]
        simp [repairUserMsg, assistantNeeds_user]
      rw [hstep, consistentB_cons_cons, consistentAtB_repairUserMsg m hm.1, hlast]
      rfl
    · simp only [Bool.not_eq_true] at h
      have hstep : repairAux m [] = [m] := by
        unfold repairAux
        simp [h]
      rw [hstep, consistentB_singleton, h]
      rfl
  | cons next rest ih =>
    intro m hm hl
    have hnext : nodupIds next := hl next (List.mem_cons_self next rest)
    have hrest : ∀ x ∈ rest, nodupIds x := fun x hx => hl x (List.mem_cons_of_mem next hx)
    by_cases h : assistantNeeds m = true
    · by_cases hu : next.role = Role.user
      · by_cases hmiss : (missingIds m next).isEmpty = true
        · have hcov : ∀ tid ∈ toolUseIds m, tid ∈ resultIds next :=
            (missingIds_empty_iff m next).1 hmiss
          have hAt : consistentAtB m next = true :=
            consistentAtB_user_counts m next hu fun tid htid =>
              List.count_eq_one_of_mem hnext.2 (hcov tid htid)
          have hstep : repairAux m (next :: rest) = m :: repairAux next rest := by
            conv_lhs => unfold repairAux
            simp [h, hu, hmiss]
          rw [hstep, consistentB_cons_repairAux, hAt, ih next hnext hrest]
          rfl
        · have hstep : repairAux m (next :: rest) =
              m :: repairAux ⟨Role.user, repairContent (missingIds m next) ++ next.content⟩
                rest := by
            conv_lhs => unfold repairAux
            simp [h, hu, hmiss]
          have hmiss_nodup : (missingIds m next).Nodup := hm.1.filter _
          have hres2 :
              resultIds ⟨Role.user, repairContent (missingIds m next) ++ next.content⟩ =
                missingIds m next ++ resultIds next :=
            resultIds_prepend_repair _ next
          have hAt : consistentAtB m
              ⟨Role.user, repairContent (missingIds m next) ++ next.content⟩ = true := by
            refine consistentAtB_user_counts m _ rfl ?_
            intro tid htid
            rw [hres2, List.count_append]
            by_cases hin : tid ∈ resultIds next
            · have hnm : tid ∉ missingIds m next :=
                fun hc => ((mem_missingIds m next tid).1 hc).2 hin
              rw [List.count_eq_zero_of_not_mem hnm, List.count_eq_one_of_mem hnext.2 hin]
            · have hmem : tid ∈ missingIds m next :=
                (mem_missingIds m next tid).2 ⟨htid, hin⟩
              rw [List.count_eq_one_of_mem hmiss_nodup hmem,
                List.count_eq_zero_of_not_mem hin]
          have hnd2 : nodupIds
              ⟨Role.user, repairContent (missingIds m next) ++ next.content⟩ := by
            constructor
            · rw [toolUseIds_prepend_repair]
              exact hnext.1
            · rw [hres2]
              exact hmiss_nodup.append hnext.2
                (fun a ha hb => ((mem_missingIds m next a).1 ha).2 hb)
          rw [hstep, consistentB_cons_repairAux, hAt, ih _ hnd2 hrest]
          rfl
      · have hstep : repairAux m (next :: rest) =
            m :: repairUserMsg (toolUseIds m) :: repairAux next rest := by
          conv_lhs => unfold repairAux
          simp [h, hu]
        have h2 : consistentAtB (repairUserMsg (toolUseIds m)) next = true :=
          consistentAtB_of_not _ _ (assistantNeeds_user _)
        rw [hstep, consistentB_cons_cons, consistentB_cons_repairAux,
          consistentAtB_repairUserMsg m hm.1, h2, ih next hnext hrest]
        rfl
    · simp only [Bool.not_eq_true] at h
      have hstep : repairAux m (next :: rest) = m :: repairAux next rest := by
        conv_lhs => unfold repairAux
        simp [h]
      rw [hstep, consistentB_cons_repairAux, consistentAtB_of_not m next h,
        ih next hnext hrest]
      rfl

theorem repairAux_of_consistent :
    ∀ (l : List Message) (m : Message), consistentB (m :: l) = true →
      repairAux m l = m :: l := by
  intro l
  induction l with
  | nil =>
    intro m h
    have hneed : assistantNeeds m = false := by
      simpa [consistentB_singleton] using h
    unfold repairAux
    simp [hneed]
  | cons next rest ih =>
    intro m h
    rw [consistentB_cons_cons, Bool.and_eq_true] at h
    obtain ⟨hAt, hrest⟩ := h
    by_cases ha : assistantNeeds m = true
    · obtain ⟨hu, hc⟩ := consistentAtB_elim m next ha hAt
      have hcov : ∀ tid ∈ toolUseIds m, tid ∈ resultIds next := fun tid htid =>
        List.count_pos_iff.mp (by rw [hc tid htid]; norm_num)
      have hmiss : (missingIds m next).isEmpty = true :=
        (missingIds_empty_iff m next).2 hcov
      unfold repairAux
      simp [ha, hu, hmiss, ih next hrest]
    · simp only [Bool.not_eq_true] at ha
      unfold repairAux
      simp [ha, ih next hrest]

/-! ## Claim C1 -/

/-- Claim C1, amended: for every conversation history whose per-message
identifier lists are duplicate-free, after `_repair_messages` runs every
`tool_use` identifier in every assistant message has exactly one matching
`tool_result` in the immediately following user message (`consistentB`);
and running the repair pass on a history that already satisfies the
invariant leaves the history unchanged. -/
theorem C1_repair_invariant_and_idempotence (ms : List Message)
    (h : ∀ m ∈ ms, nodupIds m) :
    consistentB (repairMessages ms) = true ∧
      (consistentB ms = true → repairMessages ms = ms) := by
  constructor
  · cases ms with
    | nil => rfl
    | cons m rest =>
      exact consistentB_repairAux rest m (h m (List.mem_cons_self m rest))
        fun x hx => h x (List.mem_cons_of_mem m hx)
  · intro hc
    cases ms with
    | nil => rfl
    | cons m rest => exact repairAux_of_consistent rest m hc

/-- Claim C1, counterexample to the claim as stated: on a history where
the following user message already holds two `tool_result`s with the same
`tool_use_id`, the repair pass changes nothing, and that identifier has
two matching results — not exactly one — after the pass. -/
theorem C1_exactly_once_counterexample :
    repairMessages dupHistory = dupHistory ∧
      consistentB (repairMessages dupHistory) = false := by decide

/-- Claim C1, witness: the amended theorem applied to a concrete corrupted
history (an orphaned assistant `tool_use`). -/
theorem C1_witness :
    (∀ m ∈ orphanHistory, nodupIds m) ∧
      (consistentB (repairMessages orphanHistory) = true ∧
        (consistentB orphanHistory = true → repairMessages orphanHistory = orphanHistory)) :=
  ⟨by decide, C1_repair_invariant_and_idempotence orphanHistory (by decide)⟩

/-! ## Lemmas: the overlay store -/

theorem listStartsWith_append (p s : List Char) : listStartsWith (p ++ s) p = true := by
  induction p with
  | nil => simp [listStartsWith]
  | cons a t ih => simp [listStartsWith, ih]

theorem strStartsWith_append (p s : String) : strStartsWith (p ++ s) p = true := by
  rw [strStartsWith, String.data_append]
  exact listStartsWith_append p.data s.data

theorem strStartsWith_publishKey (domain oid : String) :
    strStartsWith (publishKey domain oid) keyPref = true := by
  have h : publishKey domain oid = keyPref ++ (domain ++ ":" ++ oid) := by
    simp [publishKey, String.append_assoc]
  rw [h]
  exact strStartsWith_append keyPref (domain ++ ":" ++ oid)

theorem setKey_setKey (st : RedisSt) (k : String) (d1 d2 : StoredDoc) :
    setKey (setKey st k d1) k d2 = setKey st k d2 := by
  induction st with
  | nil => simp [setKey]
  | cons kd t ih =>
    obtain ⟨k2, d0⟩ := kd
    by_cases h : k2 = k
    · simp [setKey, h]
    · simp [setKey, h, ih]

theorem findKey_setKey_self (st : RedisSt) (k : String) (d : StoredDoc) :
    findKey (setKey st k d) k = some d := by
  induction st with
  | nil => simp [setKey, findKey]
  | cons kd t ih =>
    obtain ⟨k2, d0⟩ := kd
    by_cases h : k2 = k
    · simp [setKey, h, findKey]
    · simp [setKey, h, findKey, ih]

theorem filter_key_setKey (st : RedisSt) (k : String) (d : StoredDoc)
    (h : (st.map Prod.fst).Nodup) :
    (setKey st k d).filter (fun kd => kd.1 == k) = [(k, d)] := by
  induction st with
  | nil => simp [setKey]
  | cons kd t ih =>
    obtain ⟨k2, d0⟩ := kd
    simp only [List.map_cons, List.nodup_cons] at h
    by_cases hk : k2 = k
    · subst hk
      have hnil : t.filter (fun kd => kd.1 == k2) = [] := by
        rw [List.filter_eq_nil_iff]
        intro a ha hbeq
        rw [beq_iff_eq] at hbeq
        exact h.1 (hbeq ▸ List.mem_map_of_mem Prod.fst ha)
      simp [setKey, hnil]
    · have : ((k2, d0).1 == k) = false := by
        simp [hk]
      simp [setKey, hk, this, ih h.2]

theorem count_key_setKey (st : RedisSt) (k : String) (d : StoredDoc)
    (h : (st.map Prod.fst).Nodup) :
    ((setKey st k d).map Prod.fst).count k = 1 := by
  have hf := filter_key_setKey st k d h
  rw [List.count, List.countP_map]
  have : (setKey st k d).countP ((fun x => x == k) ∘ Prod.fst) =
      ((setKey st k d).filter (fun kd => kd.1 == k)).length := by
    rw [List.countP_eq_length_filter]
    rfl
  rw [this, hf]
  rfl

/-! ## Claim C7 -/

/-- Claim C7: `publish` stores the overlay under the key
`bones:overlay:<domain>:<id>`; publishing twice with the same
`(domain, id)` yields the same key, and the store then holds exactly one
document for that key — the second version; a subsequent `search_exact`
for the domain (whose matches all fit within `limit`) returns that overlay
exactly once. -/
theorem C7_publish_overwrite_search_once
    (env1 env2 : StoreEnv) (st st1 st2 : RedisSt) (ov1 ov2 : ROverlay)
    (domain : String) (tags1 tags2 : List String) (limit : Nat) (k1 k2 : String)
    (hkeys : (st.map Prod.fst).Nodup)
    (hid : ov1.id = ov2.id)
    (h1 : publish env1 st ov1 domain tags1 = (k1, st1))
    (h2 : publish env2 st1 ov2 domain tags2 = (k2, st2)) :
    k2 = keyPref ++ domain ++ ":" ++ ov2.id ∧
    k1 = k2 ∧
    findKey st2 k2 = some (buildDoc env2 ov2 domain tags2) ∧
    (st2.map Prod.fst).count k2 = 1 ∧
    ((st2.filter fun kd => strStartsWith kd.1 keyPref && kd.2.domain == domain).length ≤ limit →
      (searchExact st2 domain limit).filter (fun s => s.key == k2) =
        [exactHitOf (k2, buildDoc env2 ov2 domain tags2)]) := by
  simp only [publish, Prod.mk.injEq] at h1 h2
  obtain ⟨hk1, hst1⟩ := h1
  obtain ⟨hk2, hst2⟩ := h2
  have hpk : publishKey domain ov1.id = publishKey domain ov2.id := by
    rw [publishKey, publishKey, hid]
  have hkk : k1 = k2 := by
    rw [← hk1, ← hk2, hpk]
  have hst2' : st2 = setKey st k2 (buildDoc env2 ov2 domain tags2) := by
    rw [← hst2, ← hst1, ← hk2, hpk, setKey_setKey]
  refine ⟨by rw [← hk2, publishKey], hkk, ?_, ?_, ?_⟩
  · rw [hst2']
    exact findKey_setKey_self st k2 _
  · rw [hst2']
    exact count_key_setKey st k2 _ hkeys
  · intro hlen
    have hp : (fun kd : String × StoredDoc =>
        strStartsWith kd.1 keyPref && kd.2.domain == domain)
          (k2, buildDoc env2 ov2 domain tags2) = true := by
      have hs : strStartsWith k2 keyPref = true := by
        rw [← hk2]
        exact strStartsWith_publishKey domain ov2.id
      simp [hs, buildDoc]
    rw [searchExact, List.take_of_length_le hlen, List.filter_map]
    have hcomp : ((fun s : ExactHit => s.key == k2) ∘ exactHitOf) =
        fun kd : String × StoredDoc => kd.1 == k2 := by
      funext kd
      rfl
    rw [hcomp, List.filter_comm, hst2', filter_key_setKey st k2 _ hkeys]
    simp only [List.filter, hp]
    rfl

/-- Claim C7, witness: the theorem applied to a concrete double publish of
the same `(domain, id)` on an empty store. -/
theorem C7_witness :
    (([] : RedisSt).map Prod.fst).Nodup ∧ exOv1.id = exOv2.id ∧
      findKey exStore7 exKey7 = some (buildDoc exEnv exOv2 "github.com" ["nav"]) ∧
      (exStore7.map Prod.fst).count exKey7 = 1 :=
  ⟨by decide, by decide,
    (C7_publish_overwrite_search_once exEnv exEnv [] exStore7a exStore7 exOv1 exOv2
      "github.com" [] ["nav"] 10 (publish exEnv [] exOv1 "github.com" []).1 exKey7
      (by decide) (by decide) rfl rfl).2.2.1,
    (C7_publish_overwrite_search_once exEnv exEnv [] exStore7a exStore7 exOv1 exOv2
      "github.com" [] ["nav"] 10 (publish exEnv [] exOv1 "github.com" []).1 exKey7
      (by decide) (by decide) rfl rfl).2.2.2.1⟩

/-! ## Lemmas: similarity search -/

theorem mem_insertByScore (a x : SimHit) (l : List SimHit) :
    a ∈ insertByScore x l ↔ a = x ∨ a ∈ l := by
  induction l with
  | nil => simp [insertByScore]
  | cons y t ih =>
    by_cases h : x.score ≤ y.score
    · simp [insertByScore, h]
    · simp [insertByScore, h, ih]
      tauto

theorem mem_sortByScore (a : SimHit) (l : List SimHit) :
    a ∈ sortByScore l ↔ a ∈ l := by
  induction l with
  | nil => simp [sortByScore]
  | cons x t ih =>
    simp [sortByScore, mem_insertByScore, ih]

theorem sorted_insertByScore (x : SimHit) (l : List SimHit)
    (h : List.Sorted (fun a b : SimHit => a.score ≤ b.score) l) :
    List.Sorted (fun a b : SimHit => a.score ≤ b.score) (insertByScore x l) := by
  induction l with
  | nil => simp [insertByScore]
  | cons y t ih =>
    rw [List.sorted_cons] at h
    by_cases hxy : x.score ≤ y.score
    · rw [insertByScore, if_pos hxy, List.sorted_cons]
      refine ⟨?_, ?_⟩
      · intro b hb
        rcases List.mem_cons.mp hb with hb | hb
        · exact hb ▸ hxy
        · exact le_trans hxy (h.1 b hb)
      · rw [List.sorted_cons]
        exact h
    · rw [insertByScore, if_neg hxy, List.sorted_cons]
      refine ⟨?_, ih h.2⟩
      intro b hb
      rcases (mem_insertByScore b x t).mp hb with hb | hb
      · exact hb ▸ le_of_not_le hxy
      · exact h.1 b hb

theorem sorted_sortByScore (l : List SimHit) :
    List.Sorted (fun a b : SimHit => a.score ≤ b.score) (sortByScore l) := by
  induction l with
  | nil => simp [sortByScore]
  | cons x t ih => exact sorted_insertByScore x (sortByScore t) ih

/-! ## Claim C8 -/

/-- Claim C8, counterexample to the claim as stated: with the excluded
domain explicitly given as the empty string (which Python's
`if exclude_domain:` treats as falsy, skipping the filter), a published
document whose domain is the empty string is returned — a result whose
domain equals the excluded domain. -/
theorem C8_excluded_domain_counterexample :
    exHit8 ∈ searchSimilar exEnv8 exStore8 "query" (some "") 5 ∧
      exHit8.domain = "" := by decide

/-- Claim C8, amended: for every query and every non-empty excluded
domain, `search_similar` never returns a result whose domain equals the
excluded domain; its results are ordered ascending by the distance score;
and the result depends only on the query-mode embedding oracle, never on
the document-mode one. -/
theorem C8_similar_excludes_and_sorted (env : StoreEnv) (st : RedisSt)
    (q d : String) (limit : Nat) (hd : d ≠ "") :
    (∀ r ∈ searchSimilar env st q (some d) limit, r.domain ≠ d) ∧
    List.Sorted (fun a b : SimHit => a.score ≤ b.score)
      (searchSimilar env st q (some d) limit) ∧
    (∀ f now2, searchSimilar ⟨f, env.embedQuery, env.dist, now2⟩ st q (some d) limit =
      searchSimilar env st q (some d) limit) := by
  have htruthy : truthyOpt (some d) = true := by
    simp [truthyOpt, hd]
  refine ⟨?_, ?_, fun f now2 => rfl⟩
  · intro r hr
    rw [searchSimilar] at hr
    cases hq : env.embedQuery q with
    | none => rw [hq] at hr; simp at hr
    | some vec =>
      rw [hq] at hr
      simp only [htruthy, if_true] at hr
      have hr2 := List.mem_of_mem_take hr
      rw [mem_sortByScore] at hr2
      obtain ⟨kd, hkd, hrkd⟩ := List.mem_map.mp hr2
      have hfilter := (List.mem_filter.mp hkd).2
      intro hdom
      rw [← hrkd] at hdom
      simp only at hdom
      rw [hdom] at hfilter
      simp at hfilter
  · rw [searchSimilar]
    cases hq : env.embedQuery q with
    | none => simp
    | some vec =>
      simp only [htruthy, if_true]
      exact (sorted_sortByScore _).sublist (List.take_sublist _ _)

/-- Claim C8, witness: the amended theorem applied to a concrete store and
a concrete non-empty excluded domain. -/
theorem C8_witness :
    ("github.com" : String) ≠ "" ∧
      ∀ r ∈ searchSimilar exEnv8 exStore8 "query" (some "github.com") 5,
        r.domain ≠ "github.com" :=
  ⟨by decide,
    (C8_similar_excludes_and_sorted exEnv8 exStore8 "query" "github.com" 5 (by decide)).1⟩

/-! ## Claim C9 -/

/-- Claim C9: if embedding generation fails during `publish`, the document
is still written under its key, its embedding is the zero vector of the
fixed dimension, and every other field equals what a successful publish
(under the same clock) would have stored. -/
theorem C9_publish_zero_vector_on_embed_failure (env env2 : StoreEnv) (st : RedisSt)
    (ov : ROverlay) (domain : String) (tags : List String)
    (hfail : env.embedDoc (embedTextString ov.name (ov.description.getD "") domain tags) =
      none)
    (hnow : env2.now = env.now) :
    findKey (publish env st ov domain tags).2 (publish env st ov domain tags).1 =
      some (buildDoc env ov domain tags) ∧
    (buildDoc env ov domain tags).embedding = List.replicate EMBEDDING_DIMS 0 ∧
    buildDoc env ov domain tags =
      { buildDoc env2 ov domain tags with embedding := List.replicate EMBEDDING_DIMS 0 } := by
  refine ⟨?_, ?_, ?_⟩
  · rw [publish]
    exact findKey_setKey_self st _ _
  · rw [buildDoc, hfail]
    rfl
  · rw [buildDoc, buildDoc, hfail, hnow]
    rfl

/-- Claim C9, witness: the theorem applied to a concrete publish whose
embedding oracle always fails. -/
theorem C9_witness :
    exEnv.embedDoc (embedTextString exOv1.name (exOv1.description.getD "") "github.com" []) =
      none ∧
    (buildDoc exEnv exOv1 "github.com" []).embedding = List.replicate EMBEDDING_DIMS 0 :=
  ⟨rfl,
    (C9_publish_zero_vector_on_embed_failure exEnv exEnv [] exOv1 "github.com" [] rfl
      rfl).2.1⟩

/-! ## Lemmas: the batch loop and the turn -/

/-- The repair pass is the identity on an already-consistent history. -/
theorem repairMessages_of_consistent (ms : List Message) (h : consistentB ms = true) :
    repairMessages ms = ms := by
  cases ms with
  | nil => rfl
  | cons m rest => exact repairAux_of_consistent rest m h

theorem readToolResult_term_none (inbox : List InMsg) (pend : List String)
    (h : noTerminalIn inbox = true) :
    (readToolResult inbox pend).term = none := by
  induction inbox generalizing pend with
  | nil => rfl
  | cons m rest ih =>
    cases m with
    | toolResultMsg r => simp [noTerminalIn] at h
    | cancelMsg => simp [noTerminalIn] at h
    | userMessage t =>
      have hrest : noTerminalIn rest = true := by
        simp only [noTerminalIn, List.all_cons, Bool.and_eq_true] at h
        exact h.2
      simp [readToolResult, ih _ hrest]
    | initMsg modelO ctx =>
      have hrest : noTerminalIn rest = true := by
        simp only [noTerminalIn, List.all_cons, Bool.and_eq_true] at h
        exact h.2
      simp [readToolResult, ih _ hrest]
    | setModelMsg modelO =>
      have hrest : noTerminalIn rest = true := by
        simp only [noTerminalIn, List.all_cons, Bool.and_eq_true] at h
        exact h.2
      simp [readToolResult, ih _ hrest]
    | otherMsg tag =>
      have hrest : noTerminalIn rest = true := by
        simp only [noTerminalIn, List.all_cons, Bool.and_eq_true] at h
        exact h.2
      simp [readToolResult, ih _ hrest]

/-- Once the batch is cancelled or aborted, every remaining tool call is
short-circuited with a `[Cancelled]` error result and no events. -/
theorem execTools_all_cancelled (ext : AgentExt) (batch : List ToolUseAcc) (st : ToolSt)
    (h : st.cancelled = true ∨ st.aborted = true) :
    execTools ext batch st =
      ⟨batch.map (fun _ => []), batch.map (fun tu => cancBlock tu.id), st⟩ := by
  have hcond : (st.cancelled || st.aborted) = true := by
    rcases h with h | h <;> simp [h]
  induction batch with
  | nil => rfl
  | cons tu rest ih =>
    have hstep : execTool ext tu st = ([], cancBlock tu.id, st) := by
      rw [execTool, if_pos hcond]
    simp [execTools, hstep, ih]

/-- One iteration of `run_turn` on a tool-requesting response whose batch
ends cancelled or aborted: the assistant message and the tool-results user
message are committed, `done` is sent, and the turn returns. -/
theorem runTurnAux_toolUse_abort (ext : AgentExt) (fuel : Nat) (st : AgentSt)
    (inbox : List InMsg) (scriptRest : List ModelResp) (batch : List ToolUseAcc)
    (hc : st.cancelled = false) (hb : batch ≠ [])
    (hstop : (execTools ext batch ⟨inbox, st.pend, false, false⟩).tst.cancelled = true ∨
      (execTools ext batch ⟨inbox, st.pend, false, false⟩).tst.aborted = true) :
    runTurnAux ext (fuel + 1) st inbox
        (ModelResp.ok "" batch StopReason.toolUse :: scriptRest) =
      ⟨{ st with
          msgs := repairMessages st.msgs ++
            [⟨Role.assistant, batch.map (toolUseBlockOf ext)⟩,
             ⟨Role.user, (execTools ext batch ⟨inbox, st.pend, false, false⟩).results⟩],
          cancelled := (execTools ext batch ⟨inbox, st.pend, false, false⟩).tst.cancelled,
          pend := (execTools ext batch ⟨inbox, st.pend, false, false⟩).tst.pend },
       (execTools ext batch ⟨inbox, st.pend, false, false⟩).tst.inbox, scriptRest,
       ([Event.outEv OutMsg.streamingStart, Event.outEv (OutMsg.statusMsg ext.statusText)] ++
          batch.map (fun tu => Event.outEv (OutMsg.statusMsg (ext.toolStatus tu.name))) ++
          [Event.outEv OutMsg.streamingEnd] ++
          (execTools ext batch ⟨inbox, st.pend, false, false⟩).segs.flatten) ++
         [Event.outEv OutMsg.doneMsg]⟩ := by
  have hcond : ((execTools ext batch ⟨inbox, st.pend, false, false⟩).tst.cancelled ||
      (execTools ext batch ⟨inbox, st.pend, false, false⟩).tst.aborted) = true := by
    rcases hstop with h | h <;> simp [h]
  rw [runTurnAux]
  simp [hc, hb, hcond, List.append_assoc]

/-- Appending a consistent assistant/user pair keeps a history consistent. -/
theorem consistentB_append_pair :
    ∀ (ms : List Message) (a u : Message), consistentB ms = true →
      consistentAtB a u = true → assistantNeeds u = false →
      consistentB (ms ++ [a, u]) = true := by
  intro ms
  induction ms with
  | nil =>
    intro a u _ hau hu
    show consistentB [a, u] = true
    rw [consistentB_cons_cons, hau, consistentB_singleton, hu]
    rfl
  | cons m rest ih =>
    intro a u hms hau hu
    cases rest with
    | nil =>
      have hm : assistantNeeds m = false := by
        simpa [consistentB_singleton] using hms
      show consistentB (m :: [a, u]) = true
      rw [consistentB_cons_cons, consistentAtB_of_not m a hm]
      have : consistentB [a, u] = true := by
        rw [consistentB_cons_cons, hau, consistentB_singleton, hu]
        rfl
      rw [this]
      rfl
    | cons m2 rest2 =>
      rw [consistentB_cons_cons, Bool.and_eq_true] at hms
      have h2 : consistentB ((m2 :: rest2) ++ [a, u]) = true := ih a u hms.2 hau hu
      simp only [List.cons_append] at h2 ⊢
      rw [consistentB_cons_cons, hms.1, h2]
      rfl

/-! ## Claim C6 -/

/-- Claim C6: cancelling mid-batch of three tool calls after the first has
already returned a real result yields exactly three `tool_result`s in the
original request order — the first call's delivered result followed by
`[Cancelled]` error results for the second and third — and the committed
tool-results user message carries exactly those blocks. -/
theorem C6_cancel_mid_batch (ext : AgentExt) (a b c : ToolUseAcc) (r : ResPayload)
    (inbox2 : List InMsg) (pend : List String) (model : String) (msgs : List Message)
    (ha : a.name ∉ PYTHON_TOOLS)
    (hb : b.name ∉ PYTHON_TOOLS)
    (hcons : consistentB msgs = true) :
    (execTools ext [a, b, c]
        ⟨InMsg.toolResultMsg r :: InMsg.cancelMsg :: inbox2, pend, false, false⟩).results =
      [Block.toolResult a.id (buildResultContent r) r.isError,
       cancBlock b.id, cancBlock c.id] ∧
    (execTools ext [a, b, c]
        ⟨InMsg.toolResultMsg r :: InMsg.cancelMsg :: inbox2, pend, false, false⟩).tst.cancelled =
      true ∧
    (runTurn ext ⟨model, msgs, false, pend, none⟩
        (InMsg.toolResultMsg r :: InMsg.cancelMsg :: inbox2)
        [ModelResp.ok "" [a, b, c] StopReason.toolUse]).st.msgs =
      msgs ++ [⟨Role.assistant, [a, b, c].map (toolUseBlockOf ext)⟩,
        ⟨Role.user,
         [Block.toolResult a.id (buildResultContent r) r.isError,
          cancBlock b.id, cancBlock c.id]⟩] := by
  have hE : execTools ext [a, b, c]
      ⟨InMsg.toolResultMsg r :: InMsg.cancelMsg :: inbox2, pend, false, false⟩ =
      ⟨[[Event.outEv (OutMsg.toolUseMsg a.id a.name (parsedInput ext a) false),
         Event.inEv (InMsg.toolResultMsg r)],
        [Event.outEv (OutMsg.toolUseMsg b.id b.name (parsedInput ext b) false),
         Event.inEv InMsg.cancelMsg],
        []],
       [Block.toolResult a.id (buildResultContent r) r.isError,
        cancBlock b.id, cancBlock c.id],
       ⟨inbox2, pend, true, false⟩⟩ := by
    simp [execTools, execTool, readToolResult, envEvent, ha, hb]
  refine ⟨by rw [hE], by rw [hE], ?_⟩
  rw [runTurn, show maxIterations = 19 + 1 from rfl,
    runTurnAux_toolUse_abort ext 19 ⟨model, msgs, false, pend, none⟩ _ _ _ rfl
      (by simp) (by rw [hE]; exact Or.inl rfl)]
  simp [hE, repairMessages_of_consistent msgs hcons]

/-- Claim C6, witness: the theorem applied to a concrete three-call batch
with a delivered first result and a cancel during the second wait. -/
theorem C6_witness :
    exToolA.name ∉ PYTHON_TOOLS ∧
    exToolB.name ∉ PYTHON_TOOLS ∧
    consistentB [] = true ∧
    (execTools exExt [exToolA, exToolB, exToolC]
        ⟨InMsg.toolResultMsg exRes :: InMsg.cancelMsg :: [], [], false, false⟩).results =
      [Block.toolResult exToolA.id (buildResultContent exRes) exRes.isError,
       cancBlock exToolB.id, cancBlock exToolC.id] :=
  ⟨by decide, by decide, rfl,
    (C6_cancel_mid_batch exExt exToolA exToolB exToolC exRes [] [] "m" []
      (by decide) (by decide) rfl).1⟩

/-! ## Claim C5 -/

theorem toolUseIds_batchMsg (ext : AgentExt) (batch : List ToolUseAcc) :
    toolUseIds ⟨Role.assistant, batch.map (toolUseBlockOf ext)⟩ =
      batch.map ToolUseAcc.id := by
  induction batch with
  | nil => rfl
  | cons tu rest ih =>
    simp only [List.map_cons, toolUseIds, List.filterMap_cons] at ih ⊢
    simpa [toolUseBlockOf, toolUseIdOf] using ih

theorem resultIds_eofMsg (t1 : ToolUseAcc) (rest : List ToolUseAcc) :
    resultIds ⟨Role.user, connLostBlock t1.id :: rest.map (fun tu => cancBlock tu.id)⟩ =
      (t1 :: rest).map ToolUseAcc.id := by
  simp only [resultIds, List.filterMap_cons, List.map_cons]
  have h1 : resultIdOf (connLostBlock t1.id) = some t1.id := rfl
  rw [h1]
  induction rest with
  | nil => rfl
  | cons tu rest2 ih =>
    simp only [List.map_cons, List.filterMap_cons] at ih ⊢
    simpa [cancBlock, resultIdOf] using ih

/-- Claim C5: a transport EOF (`None` read) while blocked on the first
tool call's result synthesizes a `[Connection lost]` error result with
that `tool_use_id`, marks the batch aborted so every remaining call also
receives a `[Cancelled]` error result, commits exactly one tool-results
user message with those blocks, ends the turn with a `done` message, and
leaves the conversation consistent (the session survives for later
input). -/
theorem C5_eof_mid_tool_wait (ext : AgentExt) (t1 : ToolUseAcc) (rest : List ToolUseAcc)
    (inbox : List InMsg) (pend : List String) (model : String) (msgs : List Message)
    (hremote : t1.name ∉ PYTHON_TOOLS)
    (heof : noTerminalIn inbox = true)
    (hcons : consistentB msgs = true)
    (hnodup : ((t1 :: rest).map ToolUseAcc.id).Nodup) :
    (execTools ext (t1 :: rest) ⟨inbox, pend, false, false⟩).results =
      connLostBlock t1.id :: rest.map (fun tu => cancBlock tu.id) ∧
    (execTools ext (t1 :: rest) ⟨inbox, pend, false, false⟩).tst.aborted = true ∧
    (runTurn ext ⟨model, msgs, false, pend, none⟩ inbox
        [ModelResp.ok "" (t1 :: rest) StopReason.toolUse]).st.msgs =
      msgs ++ [⟨Role.assistant, (t1 :: rest).map (toolUseBlockOf ext)⟩,
        ⟨Role.user, connLostBlock t1.id :: rest.map (fun tu => cancBlock tu.id)⟩] ∧
    (runTurn ext ⟨model, msgs, false, pend, none⟩ inbox
        [ModelResp.ok "" (t1 :: rest) StopReason.toolUse]).evs.getLast? =
      some (Event.outEv OutMsg.doneMsg) ∧
    consistentB ((runTurn ext ⟨model, msgs, false, pend, none⟩ inbox
        [ModelResp.ok "" (t1 :: rest) StopReason.toolUse]).st.msgs) = true := by
  have hread := readToolResult_term_none inbox pend heof
  have hstep : execTool ext t1 ⟨inbox, pend, false, false⟩ =
      (Event.outEv (OutMsg.toolUseMsg t1.id t1.name (parsedInput ext t1) false) ::
        (readToolResult inbox pend).evs,
       connLostBlock t1.id,
       ⟨(readToolResult inbox pend).inbox, (readToolResult inbox pend).pend, false, true⟩) := by
    rw [execTool]
    simp [hremote, hread, envEvent]
  have hE : execTools ext (t1 :: rest) ⟨inbox, pend, false, false⟩ =
      ⟨(Event.outEv (OutMsg.toolUseMsg t1.id t1.name (parsedInput ext t1) false) ::
          (readToolResult inbox pend).evs) :: rest.map (fun _ => []),
       connLostBlock t1.id :: rest.map (fun tu => cancBlock tu.id),
       ⟨(readToolResult inbox pend).inbox, (readToolResult inbox pend).pend, false, true⟩⟩ := by
    simp only [execTools, hstep]
    rw [execTools_all_cancelled ext rest _ (Or.inr rfl)]
  have hAt : consistentAtB ⟨Role.assistant, (t1 :: rest).map (toolUseBlockOf ext)⟩
      ⟨Role.user, connLostBlock t1.id :: rest.map (fun tu => cancBlock tu.id)⟩ = true := by
    refine consistentAtB_user_counts _ _ rfl ?_
    intro tid htid
    rw [toolUseIds_batchMsg] at htid
    rw [resultIds_eofMsg]
    exact List.count_eq_one_of_mem hnodup htid
  have hT := runTurnAux_toolUse_abort ext 19 ⟨model, msgs, false, pend, none⟩ inbox
    [] (t1 :: rest) rfl (by simp) (by rw [hE]; exact Or.inr rfl)
  have hmsgs : (runTurn ext ⟨model, msgs, false, pend, none⟩ inbox
      [ModelResp.ok "" (t1 :: rest) StopReason.toolUse]).st.msgs =
      msgs ++ [⟨Role.assistant, (t1 :: rest).map (toolUseBlockOf ext)⟩,
        ⟨Role.user, connLostBlock t1.id :: rest.map (fun tu => cancBlock tu.id)⟩] := by
    rw [runTurn, show maxIterations = 19 + 1 from rfl, hT]
    simp [hE, repairMessages_of_consistent msgs hcons]
  refine ⟨by rw [hE], by rw [hE], hmsgs, ?_, ?_⟩
  · rw [runTurn, show maxIterations = 19 + 1 from rfl, hT]
    exact List.getLast?_concat _
  · rw [hmsgs]
    exact consistentB_append_pair msgs _ _ hcons hAt (assistantNeeds_user _)

/-- Claim C5, witness: the theorem applied to a concrete two-call batch
whose transport stream ends (EOF) during the first wait. -/
theorem C5_witness :
    exToolA.name ∉ PYTHON_TOOLS ∧
    noTerminalIn [] = true ∧
    ((exToolA :: [exToolB]).map ToolUseAcc.id).Nodup ∧
    (execTools exExt (exToolA :: [exToolB]) ⟨[], [], false, false⟩).results =
      connLostBlock exToolA.id :: [exToolB].map (fun tu => cancBlock tu.id) :=
  ⟨by decide, rfl, by decide,
    (C5_eof_mid_tool_wait exExt exToolA [exToolB] [] [] "m" []
      (by decide) rfl rfl (by decide)).1⟩

/-! ## Lemmas: streaming attempts and the fallback controller -/

/-- One iteration of `run_turn` on a provider error with a fallback
available: the switch notification is sent, the streaming attempt restarts
with the substituted model, and the history is untouched beyond repair. -/
theorem runTurnAux_err_retry (ext : AgentExt) (fuel : Nat) (st : AgentSt)
    (inbox : List InMsg) (frags : List String) (e : ApiErr)
    (scriptRest : List ModelResp) (m2 : String)
    (hc : st.cancelled = false) (ho : isOverloadedErr e = true)
    (hf : tryFallbackModel st.model = some m2) :
    runTurnAux ext (fuel + 1) st inbox (ModelResp.err frags e :: scriptRest) =
      ⟨(runTurnAux ext fuel { st with msgs := repairMessages st.msgs, model := m2 }
          inbox scriptRest).st,
       (runTurnAux ext fuel { st with msgs := repairMessages st.msgs, model := m2 }
          inbox scriptRest).inbox,
       (runTurnAux ext fuel { st with msgs := repairMessages st.msgs, model := m2 }
          inbox scriptRest).script,
       ([Event.outEv OutMsg.streamingStart, Event.outEv (OutMsg.statusMsg ext.statusText)] ++
          frags.map (fun t => Event.outEv (OutMsg.textDelta t)) ++
          [Event.outEv (OutMsg.textDelta (switchNote st.model m2)),
           Event.outEv OutMsg.streamingEnd, Event.outEv OutMsg.streamingStart]) ++
         (runTurnAux ext fuel { st with msgs := repairMessages st.msgs, model := m2 }
            inbox scriptRest).evs⟩ := by
  rw [runTurnAux]
  simp [hc, ho, hf, List.append_assoc]

/-- One iteration of `run_turn` on a terminal provider error (not
overloaded, or no fallback left): the error is reported and the turn ends
with no `done` and no new conversation message. -/
theorem runTurnAux_err_terminal (ext : AgentExt) (fuel : Nat) (st : AgentSt)
    (inbox : List InMsg) (frags : List String) (e : ApiErr)
    (scriptRest : List ModelResp)
    (hc : st.cancelled = false)
    (hterm : (if isOverloadedErr e then tryFallbackModel st.model else none) = none) :
    runTurnAux ext (fuel + 1) st inbox (ModelResp.err frags e :: scriptRest) =
      ⟨{ st with msgs := repairMessages st.msgs }, inbox, scriptRest,
       [Event.outEv OutMsg.streamingStart, Event.outEv (OutMsg.statusMsg ext.statusText)] ++
         frags.map (fun t => Event.outEv (OutMsg.textDelta t)) ++
         [Event.outEv OutMsg.streamingEnd, Event.outEv (OutMsg.errorMsg e.text)]⟩ := by
  rw [runTurnAux]
  simp [hc, hterm, List.append_assoc]

/-- One iteration of `run_turn` on a text-only natural-end response: the
text is committed as an assistant message and the turn completes with
`done`. -/
theorem runTurnAux_ok_textOnly (ext : AgentExt) (fuel : Nat) (st : AgentSt)
    (inbox : List InMsg) (text : String) (scriptRest : List ModelResp)
    (hc : st.cancelled = false) (ht : text ≠ "") :
    runTurnAux ext (fuel + 1) st inbox
        (ModelResp.ok text [] StopReason.endTurn :: scriptRest) =
      ⟨{ st with msgs := repairMessages st.msgs ++ [⟨Role.assistant, [Block.text text]⟩] },
       inbox, scriptRest,
       [Event.outEv OutMsg.streamingStart, Event.outEv (OutMsg.statusMsg ext.statusText),
        Event.outEv (OutMsg.textDelta text), Event.outEv OutMsg.streamingEnd,
        Event.outEv (OutMsg.assistantMessage text none),
        Event.outEv OutMsg.doneMsg]⟩ := by
  rw [runTurnAux]
  simp [hc, ht]

/-! ## Claim C4 -/

/-- Claim C4: starting a streaming attempt on model 1 of the 3-model
fallback chain, each overload error substitutes the next model and
restarts the attempt (model 2, then model 3), and a further overload on
the last model is terminal: an `error` message is sent, the turn ends, no
partial assistant message is appended, and the conversation is not
changed (so nothing is duplicated) across the retries. -/
theorem C4_fallback_chain_then_terminal (ext : AgentExt) (msgs : List Message)
    (inbox : List InMsg) (pend : List String)
    (e1 e2 e3 : ApiErr) (f1 f2 f3 : List String)
    (h1 : isOverloadedErr e1 = true) (h2 : isOverloadedErr e2 = true)
    (h3 : isOverloadedErr e3 = true)
    (hcons : consistentB msgs = true) :
    runTurn ext ⟨modelOpus46, msgs, false, pend, none⟩ inbox
        [ModelResp.err f1 e1, ModelResp.err f2 e2, ModelResp.err f3 e3] =
      ⟨⟨modelSonnet46, msgs, false, pend, none⟩, inbox, [],
       ([Event.outEv OutMsg.streamingStart, Event.outEv (OutMsg.statusMsg ext.statusText)] ++
          f1.map (fun t => Event.outEv (OutMsg.textDelta t)) ++
          [Event.outEv (OutMsg.textDelta (switchNote modelOpus46 modelOpus45)),
           Event.outEv OutMsg.streamingEnd, Event.outEv OutMsg.streamingStart]) ++
        (([Event.outEv OutMsg.streamingStart, Event.outEv (OutMsg.statusMsg ext.statusText)] ++
            f2.map (fun t => Event.outEv (OutMsg.textDelta t)) ++
            [Event.outEv (OutMsg.textDelta (switchNote modelOpus45 modelSonnet46)),
             Event.outEv OutMsg.streamingEnd, Event.outEv OutMsg.streamingStart]) ++
          ([Event.outEv OutMsg.streamingStart, Event.outEv (OutMsg.statusMsg ext.statusText)] ++
            f3.map (fun t => Event.outEv (OutMsg.textDelta t)) ++
            [Event.outEv OutMsg.streamingEnd, Event.outEv (OutMsg.errorMsg e3.text)]))⟩ := by
  have hrep : repairMessages msgs = msgs := repairMessages_of_consistent msgs hcons
  have hf1 : tryFallbackModel modelOpus46 = some modelOpus45 := by decide
  have hf2 : tryFallbackModel modelOpus45 = some modelSonnet46 := by decide
  have hf3 : (if isOverloadedErr e3 then tryFallbackModel modelSonnet46 else none) = none := by
    rw [h3]
    simp [show tryFallbackModel modelSonnet46 = none by decide]
  have T3 := runTurnAux_err_terminal ext 17 ⟨modelSonnet46, msgs, false, pend, none⟩ inbox
    f3 e3 [] rfl hf3
  rw [show repairMessages (⟨modelSonnet46, msgs, false, pend, none⟩ : AgentSt).msgs = msgs
    from hrep] at T3
  have T2 := runTurnAux_err_retry ext 18 ⟨modelOpus45, msgs, false, pend, none⟩ inbox
    f2 e2 [ModelResp.err f3 e3] modelSonnet46 rfl h2 hf2
  rw [show repairMessages (⟨modelOpus45, msgs, false, pend, none⟩ : AgentSt).msgs = msgs
    from hrep] at T2
  rw [show (18 : Nat) = 17 + 1 from rfl] at T2
  rw [show ({ (⟨modelOpus45, msgs, false, pend, none⟩ : AgentSt) with
      msgs := msgs, model := modelSonnet46 } : AgentSt) =
    ⟨modelSonnet46, msgs, false, pend, none⟩ from rfl] at T2
  rw [T3] at T2
  have T1 := runTurnAux_err_retry ext 19 ⟨modelOpus46, msgs, false, pend, none⟩ inbox
    f1 e1 [ModelResp.err f2 e2, ModelResp.err f3 e3] modelOpus45 rfl h1 hf1
  rw [show repairMessages (⟨modelOpus46, msgs, false, pend, none⟩ : AgentSt).msgs = msgs
    from hrep] at T1
  rw [show (19 : Nat) = 18 + 1 from rfl] at T1
  rw [show ({ (⟨modelOpus46, msgs, false, pend, none⟩ : AgentSt) with
      msgs := msgs, model := modelOpus45 } : AgentSt) =
    ⟨modelOpus45, msgs, false, pend, none⟩ from rfl] at T1
  rw [T2] at T1
  rw [runTurn, show maxIterations = 19 + 1 from rfl, T1]

/-- Claim C4, witness: the theorem applied to three concrete overload
errors (status 529) on an empty history. -/
theorem C4_witness :
    isOverloadedErr ⟨some 529, "overloaded"⟩ = true ∧
    consistentB [] = true ∧
    (runTurn exExt ⟨modelOpus46, [], false, [], none⟩ []
        [ModelResp.err [] ⟨some 529, "overloaded"⟩,
         ModelResp.err [] ⟨some 529, "overloaded"⟩,
         ModelResp.err [] ⟨some 529, "overloaded"⟩]).st.msgs = [] :=
  ⟨by decide, rfl, by
    rw [C4_fallback_chain_then_terminal exExt [] [] []
      ⟨some 529, "overloaded"⟩ ⟨some 529, "overloaded"⟩ ⟨some 529, "overloaded"⟩
      [] [] [] (by decide) (by decide) (by decide) rfl]⟩

/-! ## Claim C10 -/

/-- Claim C10: when the session's current model is not a member of the
fallback chain (e.g. installed by `set_model`), an overload error does not
end the turn: `_try_fallback_model` hits the `ValueError` branch (index
−1), switches to the first model of the chain, and the streaming attempt
restarts — here completing normally with `done`, with no `error` message
sent. -/
theorem C10_unknown_model_restarts_on_first (ext : AgentExt) (msgs : List Message)
    (inbox : List InMsg) (pend : List String) (m : String) (e : ApiErr)
    (f : List String) (t : String)
    (hm : m ∉ fallbackModels)
    (ho : isOverloadedErr e = true)
    (hcons : consistentB msgs = true)
    (ht : t ≠ "") :
    tryFallbackModel m = some modelOpus46 ∧
    (runTurn ext ⟨m, msgs, false, pend, none⟩ inbox
        [ModelResp.err f e, ModelResp.ok t [] StopReason.endTurn]).st.model =
      modelOpus46 ∧
    (runTurn ext ⟨m, msgs, false, pend, none⟩ inbox
        [ModelResp.err f e, ModelResp.ok t [] StopReason.endTurn]).st.msgs =
      msgs ++ [⟨Role.assistant, [Block.text t]⟩] ∧
    hasErrorEv (runTurn ext ⟨m, msgs, false, pend, none⟩ inbox
        [ModelResp.err f e, ModelResp.ok t [] StopReason.endTurn]).evs = false ∧
    (runTurn ext ⟨m, msgs, false, pend, none⟩ inbox
        [ModelResp.err f e, ModelResp.ok t [] StopReason.endTurn]).evs.getLast? =
      some (Event.outEv OutMsg.doneMsg) := by
  have hrep : repairMessages msgs = msgs := repairMessages_of_consistent msgs hcons
  have hidx : fallbackModels.indexOf? m = none := by
    rw [List.indexOf?_eq_none_iff]
    intro x hx hxm
    rw [beq_iff_eq] at hxm
    exact hm (hxm ▸ hx)
  have htf : tryFallbackModel m = some modelOpus46 := by
    rw [tryFallbackModel, hidx]
    simp [fallbackModels]
  have T2 := runTurnAux_ok_textOnly ext 18 ⟨modelOpus46, msgs, false, pend, none⟩ inbox
    t [] rfl ht
  rw [show repairMessages (⟨modelOpus46, msgs, false, pend, none⟩ : AgentSt).msgs = msgs
    from hrep] at T2
  have T1 := runTurnAux_err_retry ext 19 ⟨m, msgs, false, pend, none⟩ inbox
    f e [ModelResp.ok t [] StopReason.endTurn] modelOpus46 rfl ho htf
  rw [show repairMessages (⟨m, msgs, false, pend, none⟩ : AgentSt).msgs = msgs
    from hrep] at T1
  rw [show (19 : Nat) = 18 + 1 from rfl] at T1
  rw [show ({ (⟨m, msgs, false, pend, none⟩ : AgentSt) with
      msgs := msgs, model := modelOpus46 } : AgentSt) =
    ⟨modelOpus46, msgs, false, pend, none⟩ from rfl] at T1
  rw [T2] at T1
  rw [runTurn, show maxIterations = 19 + 1 from rfl, T1]
  refine ⟨htf, rfl, rfl, ?_, ?_⟩
  · simp [hasErrorEv, List.any_map, Function.comp]
  · simp only [List.getLast?_append]
    rfl

/-- Claim C10, witness: the theorem applied to a concrete non-chain model
name with a concrete overload error. -/
theorem C10_witness :
    ("custom-model" : String) ∉ fallbackModels ∧
    isOverloadedErr ⟨none, "Overloaded: rate_limit_error"⟩ = true ∧
    tryFallbackModel "custom-model" = some modelOpus46 :=
  ⟨by decide, by decide,
    (C10_unknown_model_restarts_on_first exExt [] [] [] "custom-model"
      ⟨none, "Overloaded: rate_limit_error"⟩ [] "hi" (by decide) (by decide) rfl
      (by decide)).1⟩

/-! ## Lemmas: batch order (C2) -/

theorem resultBlockId_of_some (b : Block) (i : String) (h : resultIdOf b = some i) :
    resultBlockId b = i := by
  cases b <;> simp [resultIdOf] at h <;> simp [resultBlockId, h]

theorem execTool_block (ext : AgentExt) (tu : ToolUseAcc) (st : ToolSt) :
    resultIdOf (execTool ext tu st).2.1 = some tu.id := by
  rw [execTool]
  by_cases h1 : (st.cancelled || st.aborted) = true
  · simp [h1, cancBlock, resultIdOf]
  · rw [if_neg h1]
    by_cases h2 : tu.name ∈ PYTHON_TOOLS
    · simp [h2, pyResultBlock, resultIdOf]
    · have h2c : ¬(PYTHON_TOOLS.contains tu.name = true) := by simpa using h2
      rw [if_neg h2c]
      cases hterm : (readToolResult st.inbox st.pend).term with
      | none => simp [hterm, connLostBlock, resultIdOf]
      | some t =>
        cases t with
        | result r => simp [hterm, resultIdOf]
        | cancelled => simp [hterm, cancBlock, resultIdOf]

theorem execTools_project (ext : AgentExt) :
    ∀ (batch : List ToolUseAcc) (st : ToolSt),
      (execTools ext batch st).results.map resultBlockId = batch.map ToolUseAcc.id ∧
      List.filterMap resultIdOf (execTools ext batch st).results =
        batch.map ToolUseAcc.id ∧
      (execTools ext batch st).results.length = batch.length ∧
      (execTools ext batch st).segs.length = batch.length := by
  intro batch
  induction batch with
  | nil => intro st; exact ⟨rfl, rfl, rfl, rfl⟩
  | cons tu rest ih =>
    intro st
    have hblock := execTool_block ext tu st
    have hid : resultBlockId (execTool ext tu st).2.1 = tu.id :=
      resultBlockId_of_some _ _ hblock
    obtain ⟨ih1, ih2, ih3, ih4⟩ := ih (execTool ext tu st).2.2
    refine ⟨?_, ?_, ?_, ?_⟩ <;>
      simp [execTools, ih1, ih2, ih3, ih4, hid, hblock]

theorem envIds_map_inEv (l : List InMsg) : envIds (l.map Event.inEv) = [] := by
  induction l with
  | nil => rfl
  | cons m rest ih => simpa [envIds] using ih

theorem envIds_pySeg (ext : AgentExt) (tu : ToolUseAcc) :
    envIds (pySegEvents ext tu) = [] := by
  rw [pySegEvents]
  split_ifs <;> simp [envIds]

theorem resultCount_append (a b : List InMsg) :
    resultCount (a ++ b) = resultCount a + resultCount b := by
  simp [resultCount, List.filter_append]

theorem resultCount_zero_of_noTerminal (c : List InMsg) (h : noTerminalIn c = true) :
    resultCount c = 0 := by
  induction c with
  | nil => rfl
  | cons m rest ih =>
    simp only [noTerminalIn, List.all_cons, Bool.and_eq_true] at h
    cases m with
    | toolResultMsg r => simp at h
    | cancelMsg => simp at h
    | userMessage t => simpa [resultCount] using ih h.2
    | initMsg a b => simpa [resultCount] using ih h.2
    | setModelMsg a => simpa [resultCount] using ih h.2
    | otherMsg a => simpa [resultCount] using ih h.2

theorem readToolResult_success :
    ∀ (inbox : List InMsg) (pend : List String), noCancelIn inbox = true →
      1 ≤ resultCount inbox →
      ∃ c r rest2, inbox = c ++ InMsg.toolResultMsg r :: rest2 ∧
        noTerminalIn c = true ∧
        readToolResult inbox pend =
          ⟨some (TermMsg.result r), rest2, pend ++ userTexts c,
           (c ++ [InMsg.toolResultMsg r]).map Event.inEv⟩ := by
  intro inbox
  induction inbox with
  | nil => intro pend _ hr; simp [resultCount] at hr
  | cons m rest ih =>
    intro pend hnc hr
    have hncr : noCancelIn rest = true := by
      simp only [noCancelIn, List.all_cons, Bool.and_eq_true] at hnc
      exact hnc.2
    cases m with
    | toolResultMsg r =>
      exact ⟨[], r, rest, rfl, rfl, by simp [readToolResult, userTexts]⟩
    | cancelMsg => simp [noCancelIn] at hnc
    | userMessage t =>
      have hr' : 1 ≤ resultCount rest := by simpa [resultCount] using hr
      obtain ⟨c, r, rest2, heq, hterm, hread⟩ := ih (pend ++ [t]) hncr hr'
      refine ⟨InMsg.userMessage t :: c, r, rest2, by rw [heq]; rfl, ?_, ?_⟩
      · simpa [noTerminalIn] using hterm
      · simp [readToolResult, hread, userTexts]
    | initMsg a b =>
      have hr' : 1 ≤ resultCount rest := by simpa [resultCount] using hr
      obtain ⟨c, r, rest2, heq, hterm, hread⟩ := ih pend hncr hr'
      refine ⟨InMsg.initMsg a b :: c, r, rest2, by rw [heq]; rfl, ?_, ?_⟩
      · simpa [noTerminalIn] using hterm
      · simp [readToolResult, hread, userTexts]
    | setModelMsg a =>
      have hr' : 1 ≤ resultCount rest := by simpa [resultCount] using hr
      obtain ⟨c, r, rest2, heq, hterm, hread⟩ := ih pend hncr hr'
      refine ⟨InMsg.setModelMsg a :: c, r, rest2, by rw [heq]; rfl, ?_, ?_⟩
      · simpa [noTerminalIn] using hterm
      · simp [readToolResult, hread, userTexts]
    | otherMsg a =>
      have hr' : 1 ≤ resultCount rest := by simpa [resultCount] using hr
      obtain ⟨c, r, rest2, heq, hterm, hread⟩ := ih pend hncr hr'
      refine ⟨InMsg.otherMsg a :: c, r, rest2, by rw [heq]; rfl, ?_, ?_⟩
      · simpa [noTerminalIn] using hterm
      · simp [readToolResult, hread, userTexts]

theorem envIds_append (a b : List Event) : envIds (a ++ b) = envIds a ++ envIds b := by
  simp [envIds, List.filterMap_append]

theorem envIds_cons_env (ext : AgentExt) (tu : ToolUseAcc) (l : List Event) :
    envIds (envEvent ext tu :: l) = tu.id :: envIds l := by
  simp [envIds, envEvent]

/-- Under a well-supplied inbound stream (no cancel, enough tool results),
the batch loop never cancels or aborts, the host observes exactly the
batch's host-executed envelopes in request order, and each per-call
segment satisfies the sequential contract `segSpec`. -/
theorem execTools_good (ext : AgentExt) :
    ∀ (batch : List ToolUseAcc) (inbox : List InMsg) (pend : List String),
      noCancelIn inbox = true → remoteCount batch ≤ resultCount inbox →
      (execTools ext batch ⟨inbox, pend, false, false⟩).tst.cancelled = false ∧
      (execTools ext batch ⟨inbox, pend, false, false⟩).tst.aborted = false ∧
      envIds (execTools ext batch ⟨inbox, pend, false, false⟩).segs.flatten =
        (batch.filter isRemoteTU).map ToolUseAcc.id ∧
      List.Forall₂ (segSpec ext) batch
        ((execTools ext batch ⟨inbox, pend, false, false⟩).segs.zip
          (execTools ext batch ⟨inbox, pend, false, false⟩).results) := by
  intro batch
  induction batch with
  | nil =>
    intro inbox pend _ _
    exact ⟨rfl, rfl, rfl, List.Forall₂.nil⟩
  | cons tu rest ih =>
    intro inbox pend hnc hcount
    by_cases hpy : tu.name ∈ PYTHON_TOOLS
    · have hrem : isRemoteTU tu = false := by simp [isRemoteTU, hpy]
      have hstep : execTool ext tu ⟨inbox, pend, false, false⟩ =
          (pySegEvents ext tu, pyResultBlock ext tu, ⟨inbox, pend, false, false⟩) := by
        rw [execTool]
        simp [hpy]
      have hrc : remoteCount rest ≤ resultCount inbox := by
        have hmc : remoteCount (tu :: rest) = remoteCount rest := by
          simp [remoteCount, hrem]
        omega
      obtain ⟨g1, g2, g3, g4⟩ := ih inbox pend hnc hrc
      refine ⟨?_, ?_, ?_, ?_⟩
      · simpa [execTools, hstep] using g1
      · simpa [execTools, hstep] using g2
      · have hflat : (execTools ext (tu :: rest) ⟨inbox, pend, false, false⟩).segs.flatten =
            pySegEvents ext tu ++
              (execTools ext rest ⟨inbox, pend, false, false⟩).segs.flatten := by
          simp [execTools, hstep]
        rw [hflat, envIds_append, envIds_pySeg, List.nil_append, g3]
        simp [hrem]
      · simp only [execTools, hstep]
        exact List.Forall₂.cons (by rw [segSpec, if_neg (by simp [hrem])]; exact ⟨rfl, rfl⟩) g4
    · have hrem : isRemoteTU tu = true := by simp [isRemoteTU, hpy]
      have hmc : remoteCount (tu :: rest) = remoteCount rest + 1 := by
        simp [remoteCount, hrem]
      have h1r : 1 ≤ resultCount inbox := by omega
      obtain ⟨c, r, rest2, heq, hcterm, hread⟩ := readToolResult_success inbox pend hnc h1r
      have hstep : execTool ext tu ⟨inbox, pend, false, false⟩ =
          (envEvent ext tu :: (c ++ [InMsg.toolResultMsg r]).map Event.inEv,
           Block.toolResult tu.id (buildResultContent r) r.isError,
           ⟨rest2, pend ++ userTexts c, false, false⟩) := by
        rw [execTool]
        simp [hpy, hread]
      have hnc2 : noCancelIn rest2 = true := by
        rw [heq] at hnc
        simp only [noCancelIn, List.all_append, List.all_cons, Bool.and_eq_true] at hnc
        exact hnc.2.2
      have hcnt2 : remoteCount rest ≤ resultCount rest2 := by
        rw [heq, resultCount_append] at hcount
        have hc0 := resultCount_zero_of_noTerminal c hcterm
        have hcr : resultCount (InMsg.toolResultMsg r :: rest2) = resultCount rest2 + 1 := by
          simp [resultCount]
        omega
      obtain ⟨g1, g2, g3, g4⟩ := ih rest2 (pend ++ userTexts c) hnc2 hcnt2
      refine ⟨?_, ?_, ?_, ?_⟩
      · simpa [execTools, hstep] using g1
      · simpa [execTools, hstep] using g2
      · have hflat : (execTools ext (tu :: rest) ⟨inbox, pend, false, false⟩).segs.flatten =
            (envEvent ext tu :: (c ++ [InMsg.toolResultMsg r]).map Event.inEv) ++
              (execTools ext rest ⟨rest2, pend ++ userTexts c, false, false⟩).segs.flatten := by
          simp [execTools, hstep]
        rw [hflat, List.cons_append, envIds_cons_env, envIds_append, envIds_map_inEv,
          List.nil_append, g3]
        simp [hrem]
      · simp only [execTools, hstep]
        refine List.Forall₂.cons ?_ g4
        rw [segSpec, if_pos hrem]
        exact ⟨c, r, hcterm, rfl, rfl⟩

/-- One iteration of `run_turn` on a tool-requesting response whose batch
completes normally: results are committed and the loop continues with the
remaining script. -/
theorem runTurnAux_toolUse_continue (ext : AgentExt) (fuel : Nat) (st : AgentSt)
    (inbox : List InMsg) (scriptRest : List ModelResp) (batch : List ToolUseAcc)
    (hc : st.cancelled = false) (hb : batch ≠ [])
    (h1 : (execTools ext batch ⟨inbox, st.pend, false, false⟩).tst.cancelled = false)
    (h2 : (execTools ext batch ⟨inbox, st.pend, false, false⟩).tst.aborted = false) :
    runTurnAux ext (fuel + 1) st inbox
        (ModelResp.ok "" batch StopReason.toolUse :: scriptRest) =
      ⟨(runTurnAux ext fuel
          { st with
            msgs := repairMessages st.msgs ++
              [⟨Role.assistant, batch.map (toolUseBlockOf ext)⟩,
               ⟨Role.user, (execTools ext batch ⟨inbox, st.pend, false, false⟩).results⟩],
            cancelled := false,
            pend := (execTools ext batch ⟨inbox, st.pend, false, false⟩).tst.pend }
          (execTools ext batch ⟨inbox, st.pend, false, false⟩).tst.inbox scriptRest).st,
       (runTurnAux ext fuel
          { st with
            msgs := repairMessages st.msgs ++
              [⟨Role.assistant, batch.map (toolUseBlockOf ext)⟩,
               ⟨Role.user, (execTools ext batch ⟨inbox, st.pend, false, false⟩).results⟩],
            cancelled := false,
            pend := (execTools ext batch ⟨inbox, st.pend, false, false⟩).tst.pend }
          (execTools ext batch ⟨inbox, st.pend, false, false⟩).tst.inbox scriptRest).inbox,
       (runTurnAux ext fuel
          { st with
            msgs := repairMessages st.msgs ++
              [⟨Role.assistant, batch.map (toolUseBlockOf ext)⟩,
               ⟨Role.user, (execTools ext batch ⟨inbox, st.pend, false, false⟩).results⟩],
            cancelled := false,
            pend := (execTools ext batch ⟨inbox, st.pend, false, false⟩).tst.pend }
          (execTools ext batch ⟨inbox, st.pend, false, false⟩).tst.inbox scriptRest).script,
       ([Event.outEv OutMsg.streamingStart, Event.outEv (OutMsg.statusMsg ext.statusText)] ++
          batch.map (fun tu => Event.outEv (OutMsg.statusMsg (ext.toolStatus tu.name))) ++
          [Event.outEv OutMsg.streamingEnd] ++
          (execTools ext batch ⟨inbox, st.pend, false, false⟩).segs.flatten) ++
         (runTurnAux ext fuel
            { st with
              msgs := repairMessages st.msgs ++
                [⟨Role.assistant, batch.map (toolUseBlockOf ext)⟩,
                 ⟨Role.user, (execTools ext batch ⟨inbox, st.pend, false, false⟩).results⟩],
              cancelled := false,
              pend := (execTools ext batch ⟨inbox, st.pend, false, false⟩).tst.pend }
            (execTools ext batch ⟨inbox, st.pend, false, false⟩).tst.inbox scriptRest).evs⟩ := by
  rw [runTurnAux]
  simp [hc, hb, h1, h2, List.append_assoc]

/-- One iteration of `run_turn` with an exhausted provider script: a
terminal error with no conversation change beyond repair (a modelling
artifact used to close single-response scenarios). -/
theorem runTurnAux_script_nil (ext : AgentExt) (fuel : Nat) (st : AgentSt)
    (inbox : List InMsg) (hc : st.cancelled = false) :
    runTurnAux ext (fuel + 1) st inbox [] =
      ⟨{ st with msgs := repairMessages st.msgs }, inbox, [],
       [Event.outEv OutMsg.streamingStart, Event.outEv (OutMsg.statusMsg ext.statusText),
        Event.outEv OutMsg.streamingEnd,
        Event.outEv (OutMsg.errorMsg "model unavailable")]⟩ := by
  rw [runTurnAux]
  simp [hc]

/-! ## Claim C2 -/

/-- Claim C2: for a batch requested by one model response with stop
condition `tool_use` and a well-supplied transport, the tools execute
strictly sequentially in request order — per-call trace segments satisfy
`segSpec` (each host call's envelope opens its own segment and is resolved
by the inbound `tool_result` closing it, before the next segment starts),
the host observes the envelopes in exactly request order — and exactly
one user message is appended holding exactly one `tool_result` per
requested call, in request order. -/
theorem C2_batch_sequential_in_request_order (ext : AgentExt) (batch : List ToolUseAcc)
    (inbox : List InMsg) (pend : List String) (model : String) (msgs : List Message)
    (hnc : noCancelIn inbox = true)
    (hcount : remoteCount batch ≤ resultCount inbox)
    (hb : batch ≠ [])
    (hcons : consistentB msgs = true)
    (hnodup : (batch.map ToolUseAcc.id).Nodup) :
    (execTools ext batch ⟨inbox, pend, false, false⟩).segs.length = batch.length ∧
    (execTools ext batch ⟨inbox, pend, false, false⟩).results.map resultBlockId =
      batch.map ToolUseAcc.id ∧
    envIds (execTools ext batch ⟨inbox, pend, false, false⟩).segs.flatten =
      (batch.filter isRemoteTU).map ToolUseAcc.id ∧
    List.Forall₂ (segSpec ext) batch
      ((execTools ext batch ⟨inbox, pend, false, false⟩).segs.zip
        (execTools ext batch ⟨inbox, pend, false, false⟩).results) ∧
    (runTurn ext ⟨model, msgs, false, pend, none⟩ inbox
        [ModelResp.ok "" batch StopReason.toolUse]).st.msgs =
      msgs ++ [⟨Role.assistant, batch.map (toolUseBlockOf ext)⟩,
        ⟨Role.user, (execTools ext batch ⟨inbox, pend, false, false⟩).results⟩] := by
  obtain ⟨p1, p2, p3, p4⟩ := execTools_project ext batch ⟨inbox, pend, false, false⟩
  obtain ⟨g1, g2, g3, g4⟩ := execTools_good ext batch inbox pend hnc hcount
  refine ⟨p4, p1, g3, g4, ?_⟩
  have hres : resultIds
      ⟨Role.user, (execTools ext batch ⟨inbox, pend, false, false⟩).results⟩ =
      batch.map ToolUseAcc.id := by
    simpa [resultIds] using p2
  have hAt : consistentAtB ⟨Role.assistant, batch.map (toolUseBlockOf ext)⟩
      ⟨Role.user, (execTools ext batch ⟨inbox, pend, false, false⟩).results⟩ = true := by
    refine consistentAtB_user_counts _ _ rfl ?_
    intro tid htid
    rw [toolUseIds_batchMsg] at htid
    rw [hres]
    exact List.count_eq_one_of_mem hnodup htid
  have hcons2 : consistentB (msgs ++
      [⟨Role.assistant, batch.map (toolUseBlockOf ext)⟩,
       ⟨Role.user, (execTools ext batch ⟨inbox, pend, false, false⟩).results⟩]) = true :=
    consistentB_append_pair msgs _ _ hcons hAt (assistantNeeds_user _)
  have T1 := runTurnAux_toolUse_continue ext 19 ⟨model, msgs, false, pend, none⟩ inbox
    [] batch rfl hb g1 g2
  rw [show repairMessages (⟨model, msgs, false, pend, none⟩ : AgentSt).msgs = msgs
    from repairMessages_of_consistent msgs hcons] at T1
  rw [show (19 : Nat) = 18 + 1 from rfl] at T1
  rw [runTurnAux_script_nil] at T1
  · rw [runTurn, show maxIterations = 19 + 1 from rfl, T1]
    exact repairMessages_of_consistent _ hcons2
  · rfl

/-- Claim C2, witness: the theorem applied to a concrete two-call batch
with two queued host results. -/
theorem C2_witness :
    noCancelIn [InMsg.toolResultMsg exRes, InMsg.toolResultMsg exRes] = true ∧
    remoteCount [exToolA, exToolB] ≤
      resultCount [InMsg.toolResultMsg exRes, InMsg.toolResultMsg exRes] ∧
    ([exToolA, exToolB].map ToolUseAcc.id).Nodup ∧
    (execTools exExt [exToolA, exToolB]
        ⟨[InMsg.toolResultMsg exRes, InMsg.toolResultMsg exRes], [], false, false⟩).results.map
      resultBlockId = [exToolA, exToolB].map ToolUseAcc.id :=
  ⟨rfl, by decide, by decide,
    (C2_batch_sequential_in_request_order exExt [exToolA, exToolB]
      [InMsg.toolResultMsg exRes, InMsg.toolResultMsg exRes] [] "m" []
      rfl (by decide) (by decide) rfl (by decide)).2.1⟩

/-! ## Lemmas: pending-queue bookkeeping (C3) -/

theorem userTexts_append (a b : List InMsg) :
    userTexts (a ++ b) = userTexts a ++ userTexts b := by
  simp [userTexts, List.filterMap_append]

theorem turnStartTexts_append (a b : List Event) :
    turnStartTexts (a ++ b) = turnStartTexts a ++ turnStartTexts b := by
  simp [turnStartTexts, List.filterMap_append]

theorem noMarks_append (a b : List Event) :
    noMarks (a ++ b) = (noMarks a && noMarks b) := by
  simp [noMarks, List.all_append]

theorem turnStartTexts_nil_of_noMarks (a : List Event) (h : noMarks a = true) :
    turnStartTexts a = [] := by
  induction a with
  | nil => rfl
  | cons e rest ih =>
    simp only [noMarks, List.all_cons, Bool.and_eq_true] at h
    cases e with
    | turnStart t => simp at h
    | turnEnd => simp at h
    | outEv m => simpa [turnStartTexts] using ih (by simpa [noMarks] using h.2)
    | inEv m => simpa [turnStartTexts] using ih (by simpa [noMarks] using h.2)

theorem wellNestedAux_append_noMarks (a b : List Event) (o : Bool)
    (h : noMarks a = true) :
    wellNestedAux (a ++ b) o = wellNestedAux b o := by
  induction a generalizing o with
  | nil => rfl
  | cons e rest ih =>
    simp only [noMarks, List.all_cons, Bool.and_eq_true] at h
    cases e with
    | turnStart t => simp at h
    | turnEnd => simp at h
    | outEv m => simpa [wellNestedAux] using ih o (by simpa [noMarks] using h.2)
    | inEv m => simpa [wellNestedAux] using ih o (by simpa [noMarks] using h.2)

theorem readToolResult_stream_spec :
    ∀ (inbox : List InMsg) (pend : List String),
      ∃ consumed, inbox = consumed ++ (readToolResult inbox pend).inbox ∧
        (readToolResult inbox pend).pend = pend ++ userTexts consumed ∧
        noMarks (readToolResult inbox pend).evs = true := by
  intro inbox
  induction inbox with
  | nil => intro pend; exact ⟨[], rfl, by simp [readToolResult, userTexts], rfl⟩
  | cons m rest ih =>
    intro pend
    cases m with
    | toolResultMsg r =>
      exact ⟨[InMsg.toolResultMsg r], rfl, by simp [readToolResult, userTexts], rfl⟩
    | cancelMsg =>
      exact ⟨[InMsg.cancelMsg], rfl, by simp [readToolResult, userTexts], rfl⟩
    | userMessage t =>
      obtain ⟨c, h1, h2, h3⟩ := ih (pend ++ [t])
      refine ⟨InMsg.userMessage t :: c, ?_, ?_, ?_⟩
      · exact congrArg (List.cons _) h1
      · simp [readToolResult, h2, userTexts]
      · simp [readToolResult, noMarks]
        simpa [noMarks] using h3
    | initMsg a b =>
      obtain ⟨c, h1, h2, h3⟩ := ih pend
      refine ⟨InMsg.initMsg a b :: c, ?_, ?_, ?_⟩
      · exact congrArg (List.cons _) h1
      · simp [readToolResult, h2, userTexts]
      · simp [readToolResult, noMarks]
        simpa [noMarks] using h3
    | setModelMsg a =>
      obtain ⟨c, h1, h2, h3⟩ := ih pend
      refine ⟨InMsg.setModelMsg a :: c, ?_, ?_, ?_⟩
      · exact congrArg (List.cons _) h1
      · simp [readToolResult, h2, userTexts]
      · simp [readToolResult, noMarks]
        simpa [noMarks] using h3
    | otherMsg a =>
      obtain ⟨c, h1, h2, h3⟩ := ih pend
      refine ⟨InMsg.otherMsg a :: c, ?_, ?_, ?_⟩
      · exact congrArg (List.cons _) h1
      · simp [readToolResult, h2, userTexts]
      · simp [readToolResult, noMarks]
        simpa [noMarks] using h3

theorem noMarks_pySeg (ext : AgentExt) (tu : ToolUseAcc) :
    noMarks (pySegEvents ext tu) = true := by
  rw [pySegEvents]
  split_ifs <;> rfl

theorem execTool_stream_spec (ext : AgentExt) (tu : ToolUseAcc) (st : ToolSt) :
    ∃ c, st.inbox = c ++ (execTool ext tu st).2.2.inbox ∧
      (execTool ext tu st).2.2.pend = st.pend ++ userTexts c ∧
      noMarks (execTool ext tu st).1 = true := by
  cases hca : st.cancelled || st.aborted with
  | true =>
    exact ⟨[], by simp [execTool, hca], by simp [execTool, hca, userTexts],
      by simp [execTool, hca, noMarks]⟩
  | false =>
    by_cases hpy : tu.name ∈ PYTHON_TOOLS
    · refine ⟨[], by simp [execTool, hca, hpy], by simp [execTool, hca, hpy, userTexts], ?_⟩
      simp [execTool, hca, hpy, noMarks_pySeg]
    · {
      obtain ⟨c, h1, h2, h3⟩ := readToolResult_stream_spec st.inbox st.pend
      cases hterm : (readToolResult st.inbox st.pend).term with
      | none =>
        refine ⟨c, ?_, ?_, ?_⟩
        · simpa [execTool, hca, hpy, hterm] using h1
        · simpa [execTool, hca, hpy, hterm] using h2
        · simp [execTool, hca, hpy, hterm, noMarks, envEvent]
          simpa [noMarks] using h3
      | some tm =>
        cases tm with
        | cancelled =>
          refine ⟨c, ?_, ?_, ?_⟩
          · simpa [execTool, hca, hpy, hterm] using h1
          · simpa [execTool, hca, hpy, hterm] using h2
          · simp [execTool, hca, hpy, hterm, noMarks, envEvent]
            simpa [noMarks] using h3
        | result r =>
          refine ⟨c, ?_, ?_, ?_⟩
          · simpa [execTool, hca, hpy, hterm] using h1
          · simpa [execTool, hca, hpy, hterm] using h2
          · simp [execTool, hca, hpy, hterm, noMarks, envEvent]
            simpa [noMarks] using h3
      }

theorem execTools_stream_spec (ext : AgentExt) (tus : List ToolUseAcc) :
    ∀ st : ToolSt,
      ∃ c, st.inbox = c ++ (execTools ext tus st).tst.inbox ∧
        (execTools ext tus st).tst.pend = st.pend ++ userTexts c ∧
        noMarks (execTools ext tus st).segs.flatten = true := by
  induction tus with
  | nil =>
    intro st
    exact ⟨[], by simp [execTools], by simp [execTools, userTexts], by simp [execTools, noMarks]⟩
  | cons tu rest ih =>
    intro st
    obtain ⟨c1, h1, h2, h3⟩ := execTool_stream_spec ext tu st
    obtain ⟨c2, g1, g2, g3⟩ := ih (execTool ext tu st).2.2
    have htst : (execTools ext (tu :: rest) st).tst =
        (execTools ext rest (execTool ext tu st).2.2).tst := by
      simp [execTools]
    have hsegs : (execTools ext (tu :: rest) st).segs =
        (execTool ext tu st).1 :: (execTools ext rest (execTool ext tu st).2.2).segs := by
      simp [execTools]
    refine ⟨c1 ++ c2, ?_, ?_, ?_⟩
    · rw [htst, List.append_assoc, ← g1]
      exact h1
    · rw [htst, g2, h2, userTexts_append, List.append_assoc]
    · rw [hsegs]
      simp [noMarks_append, h3, g3]

/-- One iteration of `run_turn` on a response that does not request tools
(no `tool_use` stop or empty batch), with arbitrary streamed text. -/
theorem runTurnAux_ok_notool_gen (ext : AgentExt) (fuel : Nat) (st : AgentSt)
    (inbox : List InMsg) (text : String) (tools : List ToolUseAcc) (stop : StopReason)
    (scriptRest : List ModelResp)
    (hc : st.cancelled = false) (hne : ¬(stop = StopReason.toolUse ∧ tools ≠ [])) :
    runTurnAux ext (fuel + 1) st inbox (ModelResp.ok text tools stop :: scriptRest) =
      ⟨{ st with msgs :=
           if ((if text ≠ "" then [Block.text text] else []) ++
               tools.map (toolUseBlockOf ext)) = [] then repairMessages st.msgs
           else repairMessages st.msgs ++
             [⟨Role.assistant, (if text ≠ "" then [Block.text text] else []) ++
                tools.map (toolUseBlockOf ext)⟩] },
       inbox, scriptRest,
       ([Event.outEv OutMsg.streamingStart, Event.outEv (OutMsg.statusMsg ext.statusText)] ++
          (if text ≠ "" then [Event.outEv (OutMsg.textDelta text)] else []) ++
          tools.map (fun tu => Event.outEv (OutMsg.statusMsg (ext.toolStatus tu.name))) ++
          [Event.outEv OutMsg.streamingEnd] ++
          (if text ≠ "" then [Event.outEv (OutMsg.assistantMessage text none)] else [])) ++
         [Event.outEv OutMsg.doneMsg]⟩ := by
  rw [runTurnAux]
  simp [hc, hne, List.append_assoc]

/-- One iteration of `run_turn` on a tool-requesting response whose batch
ends cancelled or aborted, with arbitrary streamed text. -/
theorem runTurnAux_toolUse_abort_gen (ext : AgentExt) (fuel : Nat) (st : AgentSt)
    (inbox : List InMsg) (text : String) (scriptRest : List ModelResp)
    (batch : List ToolUseAcc)
    (hc : st.cancelled = false) (hb : batch ≠ [])
    (hcond : ((execTools ext batch ⟨inbox, st.pend, false, false⟩).tst.cancelled ||
      (execTools ext batch ⟨inbox, st.pend, false, false⟩).tst.aborted) = true) :
    runTurnAux ext (fuel + 1) st inbox
        (ModelResp.ok text batch StopReason.toolUse :: scriptRest) =
      ⟨{ st with
          msgs := repairMessages st.msgs ++
            [⟨Role.assistant, (if text ≠ "" then [Block.text text] else []) ++
               batch.map (toolUseBlockOf ext)⟩,
             ⟨Role.user, (execTools ext batch ⟨inbox, st.pend, false, false⟩).results⟩],
          cancelled := (execTools ext batch ⟨inbox, st.pend, false, false⟩).tst.cancelled,
          pend := (execTools ext batch ⟨inbox, st.pend, false, false⟩).tst.pend },
       (execTools ext batch ⟨inbox, st.pend, false, false⟩).tst.inbox, scriptRest,
       ([Event.outEv OutMsg.streamingStart, Event.outEv (OutMsg.statusMsg ext.statusText)] ++
          (if text ≠ "" then [Event.outEv (OutMsg.textDelta text)] else []) ++
          batch.map (fun tu => Event.outEv (OutMsg.statusMsg (ext.toolStatus tu.name))) ++
          [Event.outEv OutMsg.streamingEnd] ++
          (if text ≠ "" then [Event.outEv (OutMsg.assistantMessage text none)] else []) ++
          (execTools ext batch ⟨inbox, st.pend, false, false⟩).segs.flatten) ++
         [Event.outEv OutMsg.doneMsg]⟩ := by
  rw [runTurnAux]
  simp [hc, hb, hcond, List.append_assoc]

/-- One iteration of `run_turn` on a tool-requesting response whose batch
completes normally, with arbitrary streamed text: the loop continues. -/
theorem runTurnAux_toolUse_continue_gen (ext : AgentExt) (fuel : Nat) (st : AgentSt)
    (inbox : List InMsg) (text : String) (scriptRest : List ModelResp)
    (batch : List ToolUseAcc)
    (hc : st.cancelled = false) (hb : batch ≠ [])
    (h1 : (execTools ext batch ⟨inbox, st.pend, false, false⟩).tst.cancelled = false)
    (h2 : (execTools ext batch ⟨inbox, st.pend, false, false⟩).tst.aborted = false) :
    runTurnAux ext (fuel + 1) st inbox
        (ModelResp.ok text batch StopReason.toolUse :: scriptRest) =
      ⟨(runTurnAux ext fuel
          { st with
            msgs := repairMessages st.msgs ++
              [⟨Role.assistant, (if text ≠ "" then [Block.text text] else []) ++
                 batch.map (toolUseBlockOf ext)⟩,
               ⟨Role.user, (execTools ext batch ⟨inbox, st.pend, false, false⟩).results⟩],
            cancelled := false,
            pend := (execTools ext batch ⟨inbox, st.pend, false, false⟩).tst.pend }
          (execTools ext batch ⟨inbox, st.pend, false, false⟩).tst.inbox scriptRest).st,
       (runTurnAux ext fuel
          { st with
            msgs := repairMessages st.msgs ++
              [⟨Role.assistant, (if text ≠ "" then [Block.text text] else []) ++
                 batch.map (toolUseBlockOf ext)⟩,
               ⟨Role.user, (execTools ext batch ⟨inbox, st.pend, false, false⟩).results⟩],
            cancelled := false,
            pend := (execTools ext batch ⟨inbox, st.pend, false, false⟩).tst.pend }
          (execTools ext batch ⟨inbox, st.pend, false, false⟩).tst.inbox scriptRest).inbox,
       (runTurnAux ext fuel
          { st with
            msgs := repairMessages st.msgs ++
              [⟨Role.assistant, (if text ≠ "" then [Block.text text] else []) ++
                 batch.map (toolUseBlockOf ext)⟩,
               ⟨Role.user, (execTools ext batch ⟨inbox, st.pend, false, false⟩).results⟩],
            cancelled := false,
            pend := (execTools ext batch ⟨inbox, st.pend, false, false⟩).tst.pend }
          (execTools ext batch ⟨inbox, st.pend, false, false⟩).tst.inbox scriptRest).script,
       ([Event.outEv OutMsg.streamingStart, Event.outEv (OutMsg.statusMsg ext.statusText)] ++
          (if text ≠ "" then [Event.outEv (OutMsg.textDelta text)] else []) ++
          batch.map (fun tu => Event.outEv (OutMsg.statusMsg (ext.toolStatus tu.name))) ++
          [Event.outEv OutMsg.streamingEnd] ++
          (if text ≠ "" then [Event.outEv (OutMsg.assistantMessage text none)] else []) ++
          (execTools ext batch ⟨inbox, st.pend, false, false⟩).segs.flatten) ++
         (runTurnAux ext fuel
            { st with
              msgs := repairMessages st.msgs ++
                [⟨Role.assistant, (if text ≠ "" then [Block.text text] else []) ++
                   batch.map (toolUseBlockOf ext)⟩,
                 ⟨Role.user, (execTools ext batch ⟨inbox, st.pend, false, false⟩).results⟩],
              cancelled := false,
              pend := (execTools ext batch ⟨inbox, st.pend, false, false⟩).tst.pend }
            (execTools ext batch ⟨inbox, st.pend, false, false⟩).tst.inbox scriptRest).evs⟩ := by
  rw [runTurnAux]
  simp [hc, hb, h1, h2, List.append_assoc]

theorem noMarks_nil : noMarks [] = true := rfl

theorem noMarks_cons_outEv (m : OutMsg) (l : List Event) :
    noMarks (Event.outEv m :: l) = noMarks l := by
  simp [noMarks]

theorem noMarks_statusEvs (ext : AgentExt) (tools : List ToolUseAcc) :
    noMarks (tools.map fun tu => Event.outEv (OutMsg.statusMsg (ext.toolStatus tu.name))) =
      true := by
  induction tools with
  | nil => rfl
  | cons tu rest ih => simpa [noMarks] using ih

theorem noMarks_textDeltas (l : List String) :
    noMarks (l.map fun t => Event.outEv (OutMsg.textDelta t)) = true := by
  induction l with
  | nil => rfl
  | cons t rest ih => simpa [noMarks] using ih

theorem noMarks_if_outEv (P : Prop) [Decidable P] (m : OutMsg) :
    noMarks (if P then [Event.outEv m] else []) = true := by
  split_ifs <;> rfl

theorem noMarks_if_outEv2 (P : Prop) [Decidable P] (m : OutMsg) :
    noMarks (if P then [] else [Event.outEv m]) = true := by
  split_ifs <;> rfl

/-- A turn only consumes a prefix of the inbound stream; everything it
reads that is a `user_message` is appended, in order, to the pending
queue; and it emits no turn marks. -/
theorem runTurnAux_stream_spec (ext : AgentExt) :
    ∀ (fuel : Nat) (st : AgentSt) (inbox : List InMsg) (script : List ModelResp),
      ∃ c, inbox = c ++ (runTurnAux ext fuel st inbox script).inbox ∧
        (runTurnAux ext fuel st inbox script).st.pend = st.pend ++ userTexts c ∧
        noMarks (runTurnAux ext fuel st inbox script).evs = true := by
  intro fuel
  induction fuel with
  | zero =>
    intro st inbox script
    exact ⟨[], rfl, by simp [runTurnAux, userTexts], by simp [runTurnAux, noMarks]⟩
  | succ fuel ih =>
    intro st inbox script
    cases hc : st.cancelled with
    | true =>
      refine ⟨[], ?_, ?_, ?_⟩ <;> rw [runTurnAux] <;> simp [hc, userTexts, noMarks]
    | false =>
      cases script with
      | nil =>
        rw [runTurnAux_script_nil ext fuel st inbox hc]
        exact ⟨[], rfl, by simp [userTexts], by simp [noMarks]⟩
      | cons resp scriptRest =>
        cases resp with
        | err frags e =>
          cases hfb : (if isOverloadedErr e then tryFallbackModel st.model else none) with
          | none =>
            rw [runTurnAux_err_terminal ext fuel st inbox frags e scriptRest hc hfb]
            refine ⟨[], rfl, by simp [userTexts], ?_⟩
            simp [noMarks_append, noMarks_cons_outEv, noMarks_nil, noMarks_textDeltas]
          | some m2 =>
            have ho : isOverloadedErr e = true := by
              cases hoe : isOverloadedErr e with
              | true => rfl
              | false => rw [hoe, if_neg (by simp)] at hfb; exact absurd hfb (by simp)
            have hf : tryFallbackModel st.model = some m2 := by
              rw [ho, if_pos rfl] at hfb; exact hfb
            rw [runTurnAux_err_retry ext fuel st inbox frags e scriptRest m2 hc ho hf]
            obtain ⟨c, h1, h2, h3⟩ := ih { st with msgs := repairMessages st.msgs, model := m2 }
              inbox scriptRest
            refine ⟨c, h1, by simpa using h2, ?_⟩
            simp [noMarks_append, noMarks_cons_outEv, noMarks_nil, noMarks_textDeltas, h3]
        | ok text tools stop =>
          by_cases htool : stop = StopReason.toolUse ∧ tools ≠ []
          · obtain ⟨hstop, hb⟩ := htool
            subst hstop
            have e1 : inbox = _ ++
                (execTools ext tools ⟨inbox, st.pend, false, false⟩).tst.inbox :=
              (execTools_stream_spec ext tools ⟨inbox, st.pend, false, false⟩).choose_spec.1
            have e2 : (execTools ext tools ⟨inbox, st.pend, false, false⟩).tst.pend =
                st.pend ++ userTexts
                  (execTools_stream_spec ext tools ⟨inbox, st.pend, false, false⟩).choose :=
              (execTools_stream_spec ext tools ⟨inbox, st.pend, false, false⟩).choose_spec.2.1
            have e3 : noMarks
                (execTools ext tools ⟨inbox, st.pend, false, false⟩).segs.flatten = true :=
              (execTools_stream_spec ext tools ⟨inbox, st.pend, false, false⟩).choose_spec.2.2
            set c1 := (execTools_stream_spec ext tools ⟨inbox, st.pend, false, false⟩).choose
              with hc1
            cases habort : ((execTools ext tools ⟨inbox, st.pend, false, false⟩).tst.cancelled ||
                (execTools ext tools ⟨inbox, st.pend, false, false⟩).tst.aborted) with
            | true =>
              rw [runTurnAux_toolUse_abort_gen ext fuel st inbox text scriptRest tools hc hb habort]
              refine ⟨c1, e1, by simpa using e2, ?_⟩
              simp [noMarks_append, noMarks_cons_outEv, noMarks_nil, noMarks_statusEvs,
                noMarks_if_outEv, noMarks_if_outEv2, e3]
            | false =>
              simp only [Bool.or_eq_false_iff] at habort
              rw [runTurnAux_toolUse_continue_gen ext fuel st inbox text scriptRest tools hc hb
                habort.1 habort.2]
              obtain ⟨c2, g1, g2, g3⟩ := ih
                { st with
                  msgs := repairMessages st.msgs ++
                    [⟨Role.assistant, (if text ≠ "" then [Block.text text] else []) ++
                       tools.map (toolUseBlockOf ext)⟩,
                     ⟨Role.user, (execTools ext tools ⟨inbox, st.pend, false, false⟩).results⟩],
                  cancelled := false,
                  pend := (execTools ext tools ⟨inbox, st.pend, false, false⟩).tst.pend }
                (execTools ext tools ⟨inbox, st.pend, false, false⟩).tst.inbox scriptRest
              refine ⟨c1 ++ c2, ?_, ?_, ?_⟩
              · rw [List.append_assoc, ← g1]
                exact e1
              · rw [g2]
                simp only []
                rw [e2, userTexts_append, List.append_assoc]
              · rw [noMarks_append, g3, Bool.and_true]
                simp [noMarks_append, noMarks_cons_outEv, noMarks_nil, noMarks_statusEvs,
                  noMarks_if_outEv, noMarks_if_outEv2, e3]
          · rw [runTurnAux_ok_notool_gen ext fuel st inbox text tools stop scriptRest hc htool]
            refine ⟨[], rfl, by simp [userTexts], ?_⟩
            simp [noMarks_append, noMarks_cons_outEv, noMarks_nil, noMarks_statusEvs,
              noMarks_if_outEv, noMarks_if_outEv2]

/-- `handle_user_message` consumes a prefix of the inbound stream, appends
the `user_message`s it buffered to the pending queue in arrival order, and
emits no turn marks. -/
theorem handleUserMessage_stream_spec (ext : AgentExt) (st : AgentSt) (inbox : List InMsg)
    (script : List ModelResp) (t : String) :
    ∃ c, inbox = c ++ (handleUserMessage ext st inbox script t).inbox ∧
      (handleUserMessage ext st inbox script t).st.pend = st.pend ++ userTexts c ∧
      noMarks (handleUserMessage ext st inbox script t).evs = true := by
  obtain ⟨c, h1, h2, h3⟩ := runTurnAux_stream_spec ext maxIterations
    { st with
      msgs := st.msgs ++ [⟨Role.user,
        match st.initCtx with
        | some ctx => ctx ++
            [Block.text ("[Screenshot of current window above]\n\nUser request: " ++ t)]
        | none => [Block.text t]⟩],
      initCtx := none } inbox script
  exact ⟨c, h1, h2, h3⟩

theorem wellNestedAux_turnStart (t : String) (l : List Event) :
    wellNestedAux (Event.turnStart t :: l) false = wellNestedAux l true := by
  simp [wellNestedAux]

theorem wellNestedAux_turnEnd (l : List Event) :
    wellNestedAux (Event.turnEnd :: l) true = wellNestedAux l false := by
  simp [wellNestedAux]

theorem wellNestedAux_cons_outEv (m : OutMsg) (l : List Event) (o : Bool) :
    wellNestedAux (Event.outEv m :: l) o = wellNestedAux l o := rfl

theorem turnStartTexts_cons_start (t : String) (l : List Event) :
    turnStartTexts (Event.turnStart t :: l) = t :: turnStartTexts l := by
  simp [turnStartTexts]

theorem turnStartTexts_cons_end (l : List Event) :
    turnStartTexts (Event.turnEnd :: l) = turnStartTexts l := by
  simp [turnStartTexts]

theorem turnStartTexts_cons_outEv (m : OutMsg) (l : List Event) :
    turnStartTexts (Event.outEv m :: l) = turnStartTexts l := by
  simp [turnStartTexts]

/-- The drain loop's trace closes every turn mark it opens: it is
transparent for well-nestedness. -/
theorem drainAux_wn (ext : AgentExt) :
    ∀ (fuel : Nat) (st : AgentSt) (inbox : List InMsg) (script : List ModelResp)
      (b : List Event),
      wellNestedAux ((drainAux ext fuel st inbox script).evs ++ b) false =
        wellNestedAux b false := by
  intro fuel
  induction fuel with
  | zero => intro st inbox script b; rfl
  | succ fuel ih =>
    intro st inbox script b
    cases hp : st.pend with
    | nil => rw [drainAux]; simp [hp]
    | cons t rest =>
      obtain ⟨c1, h1, h2, h3⟩ := handleUserMessage_stream_spec ext
        { st with pend := rest, cancelled := false } inbox script t
      rw [drainAux]
      simp only [hp, List.cons_append, List.append_assoc]
      rw [wellNestedAux_turnStart,
        wellNestedAux_append_noMarks _ _ _ h3,
        wellNestedAux_turnEnd, ih]

/-- The drain loop with adequate fuel empties the queue, consumes a prefix
of the inbound stream, and processes exactly the queued texts followed by
the texts it buffered along the way, in order. -/
theorem drainAux_spec (ext : AgentExt) :
    ∀ (fuel : Nat) (st : AgentSt) (inbox : List InMsg) (script : List ModelResp),
      st.pend.length + inbox.length ≤ fuel →
      ∃ c, inbox = c ++ (drainAux ext fuel st inbox script).inbox ∧
        (drainAux ext fuel st inbox script).st.pend = [] ∧
        turnStartTexts (drainAux ext fuel st inbox script).evs =
          st.pend ++ userTexts c := by
  intro fuel
  induction fuel with
  | zero =>
    intro st inbox script hf
    have hp : st.pend = [] := by
      have := Nat.le_zero.mp hf
      exact List.eq_nil_of_length_eq_zero (by omega)
    exact ⟨[], rfl, by simp [drainAux, hp],
      by simp [drainAux, hp, userTexts, turnStartTexts]⟩
  | succ fuel ih =>
    intro st inbox script hf
    cases hp : st.pend with
    | nil =>
      refine ⟨[], ?_, ?_, ?_⟩ <;> rw [drainAux] <;>
        simp [hp, userTexts, turnStartTexts]
    | cons t rest =>
      obtain ⟨c1, h1, h2', h3⟩ := handleUserMessage_stream_spec ext
        { st with pend := rest, cancelled := false } inbox script t
      have h2 : (handleUserMessage ext { st with pend := rest, cancelled := false }
          inbox script t).st.pend = rest ++ userTexts c1 := h2'
      have hlen : (handleUserMessage ext { st with pend := rest, cancelled := false }
            inbox script t).st.pend.length +
          (handleUserMessage ext { st with pend := rest, cancelled := false }
            inbox script t).inbox.length ≤ fuel := by
        have l1 : inbox.length = c1.length +
            (handleUserMessage ext { st with pend := rest, cancelled := false }
              inbox script t).inbox.length := by
          conv_lhs => rw [h1]
          rw [List.length_append]
        have l2 : (userTexts c1).length ≤ c1.length := List.length_filterMap_le _ _
        have l3 : st.pend.length = rest.length + 1 := by rw [hp]; rfl
        rw [h2, List.length_append]
        omega
      obtain ⟨c2, g1, g2, g3⟩ := ih
        (handleUserMessage ext { st with pend := rest, cancelled := false } inbox script t).st
        (handleUserMessage ext { st with pend := rest, cancelled := false } inbox script t).inbox
        (handleUserMessage ext { st with pend := rest, cancelled := false } inbox script t).script
        hlen
      refine ⟨c1 ++ c2, ?_, ?_, ?_⟩
      · rw [drainAux]
        simp only [hp]
        rw [List.append_assoc, ← g1]
        exact h1
      · rw [drainAux]
        simp only [hp]
        exact g2
      · rw [drainAux]
        simp only [hp, List.cons_append]
        rw [turnStartTexts_cons_start, turnStartTexts_append,
          turnStartTexts_nil_of_noMarks _ h3, turnStartTexts_cons_end, g3, h2,
          userTexts_append]
        simp

/-- The session loop's trace is transparent for well-nestedness: every
turn mark it opens is closed before the next. -/
theorem mainLoopAux_wn (ext : AgentExt) :
    ∀ (fuel : Nat) (inbox : List InMsg) (script : List ModelResp) (ag : Option AgentSt)
      (b : List Event),
      wellNestedAux (mainLoopAux ext fuel inbox script ag ++ b) false =
        wellNestedAux b false := by
  intro fuel
  induction fuel with
  | zero => intro inbox script ag b; rfl
  | succ fuel ih =>
    intro inbox script ag b
    cases inbox with
    | nil => rfl
    | cons m rest =>
      cases m with
      | initMsg modelO ctx =>
        simp only [mainLoopAux, List.cons_append]
        rw [wellNestedAux_cons_outEv, ih]
      | userMessage t =>
        cases ag with
        | none =>
          simp only [mainLoopAux, List.cons_append]
          rw [wellNestedAux_cons_outEv, ih]
        | some a =>
          obtain ⟨c1, h1, h2, h3⟩ := handleUserMessage_stream_spec ext
            { a with cancelled := false } rest script t
          simp only [mainLoopAux, drainPending, List.cons_append, List.append_assoc]
          rw [wellNestedAux_turnStart,
            wellNestedAux_append_noMarks _ _ _ h3,
            wellNestedAux_turnEnd, drainAux_wn, ih]
      | setModelMsg modelO =>
        cases ag with
        | none => simp only [mainLoopAux]; rw [ih]
        | some a => simp only [mainLoopAux]; rw [ih]
      | cancelMsg =>
        cases ag with
        | none => simp only [mainLoopAux]; rw [ih]
        | some a => simp only [mainLoopAux]; rw [ih]
      | toolResultMsg r => simp only [mainLoopAux]; rw [ih]
      | otherMsg s => simp only [mainLoopAux]; rw [ih]

/-- With adequate fuel and an empty pending queue, the session loop
processes exactly the inbound `user_message` texts, in arrival order. -/
theorem mainLoopAux_processed (ext : AgentExt) :
    ∀ (fuel : Nat) (inbox : List InMsg) (script : List ModelResp) (a : AgentSt),
      inbox.length ≤ fuel → a.pend = [] →
      turnStartTexts (mainLoopAux ext fuel inbox script (some a)) = userTexts inbox := by
  intro fuel
  induction fuel with
  | zero =>
    intro inbox script a hf _
    have hnil : inbox = [] := List.eq_nil_of_length_eq_zero (Nat.le_zero.mp hf)
    subst hnil
    rfl
  | succ fuel ih =>
    intro inbox script a hf hp
    cases inbox with
    | nil => rfl
    | cons m rest =>
      have hr : rest.length ≤ fuel := by
        simp only [List.length_cons] at hf
        omega
      cases m with
      | initMsg modelO ctx =>
        simp only [mainLoopAux]
        rw [turnStartTexts_cons_outEv, ih rest script _ hr rfl]
        simp [userTexts]
      | userMessage t =>
        obtain ⟨c1, h1, h2', h3⟩ := handleUserMessage_stream_spec ext
          { a with cancelled := false } rest script t
        have h2 : (handleUserMessage ext { a with cancelled := false } rest script t).st.pend
            = userTexts c1 := by
          rw [h2']
          simp [hp]
        obtain ⟨c2, g1, g2, g3⟩ := drainAux_spec ext
          ((handleUserMessage ext { a with cancelled := false } rest script t).st.pend.length +
            (handleUserMessage ext { a with cancelled := false } rest script t).inbox.length)
          (handleUserMessage ext { a with cancelled := false } rest script t).st
          (handleUserMessage ext { a with cancelled := false } rest script t).inbox
          (handleUserMessage ext { a with cancelled := false } rest script t).script
          (le_refl _)
        have l1 : (handleUserMessage ext { a with cancelled := false }
            rest script t).inbox.length ≤ rest.length := by
          have := congrArg List.length h1
          simp only [List.length_append] at this
          omega
        have l2 : (drainAux ext
            ((handleUserMessage ext { a with cancelled := false } rest script t).st.pend.length +
              (handleUserMessage ext { a with cancelled := false } rest script t).inbox.length)
            (handleUserMessage ext { a with cancelled := false } rest script t).st
            (handleUserMessage ext { a with cancelled := false } rest script t).inbox
            (handleUserMessage ext { a with cancelled := false } rest script t).script).inbox.length ≤
            (handleUserMessage ext { a with cancelled := false } rest script t).inbox.length := by
          have := congrArg List.length g1
          simp only [List.length_append] at this
          omega
        have hres := ih
          (drainAux ext
            ((handleUserMessage ext { a with cancelled := false } rest script t).st.pend.length +
              (handleUserMessage ext { a with cancelled := false } rest script t).inbox.length)
            (handleUserMessage ext { a with cancelled := false } rest script t).st
            (handleUserMessage ext { a with cancelled := false } rest script t).inbox
            (handleUserMessage ext { a with cancelled := false } rest script t).script).inbox
          (drainAux ext
            ((handleUserMessage ext { a with cancelled := false } rest script t).st.pend.length +
              (handleUserMessage ext { a with cancelled := false } rest script t).inbox.length)
            (handleUserMessage ext { a with cancelled := false } rest script t).st
            (handleUserMessage ext { a with cancelled := false } rest script t).inbox
            (handleUserMessage ext { a with cancelled := false } rest script t).script).script
          (drainAux ext
            ((handleUserMessage ext { a with cancelled := false } rest script t).st.pend.length +
              (handleUserMessage ext { a with cancelled := false } rest script t).inbox.length)
            (handleUserMessage ext { a with cancelled := false } rest script t).st
            (handleUserMessage ext { a with cancelled := false } rest script t).inbox
            (handleUserMessage ext { a with cancelled := false } rest script t).script).st
          (by omega) g2
        have g3' : turnStartTexts (drainAux ext
            ((handleUserMessage ext { a with cancelled := false } rest script t).st.pend.length +
              (handleUserMessage ext { a with cancelled := false } rest script t).inbox.length)
            (handleUserMessage ext { a with cancelled := false } rest script t).st
            (handleUserMessage ext { a with cancelled := false } rest script t).inbox
            (handleUserMessage ext { a with cancelled := false } rest script t).script).evs =
            userTexts c1 ++ userTexts c2 := by
          rw [g3, h2]
        simp only [mainLoopAux, drainPending]
        rw [turnStartTexts_append, turnStartTexts_append, turnStartTexts_cons_start,
          turnStartTexts_nil_of_noMarks _ h3, turnStartTexts_cons_end, g3', hres]
        have hrest : rest = c1 ++ (c2 ++ (drainAux ext
            ((handleUserMessage ext { a with cancelled := false } rest script t).st.pend.length +
              (handleUserMessage ext { a with cancelled := false } rest script t).inbox.length)
            (handleUserMessage ext { a with cancelled := false } rest script t).st
            (handleUserMessage ext { a with cancelled := false } rest script t).inbox
            (handleUserMessage ext { a with cancelled := false } rest script t).script).inbox) := by
          conv_lhs => rw [h1]
          rw [← g1]
        conv_rhs => rw [userTexts, List.filterMap_cons]
        conv_rhs => rw [hrest]
        simp [userTexts_append, userTexts]
      | setModelMsg modelO =>
        simp only [mainLoopAux]
        rw [ih rest script _ hr (by simpa using hp)]
        simp [userTexts]
      | cancelMsg =>
        simp only [mainLoopAux]
        rw [ih rest script _ hr (by simpa using hp)]
        simp [userTexts]
      | toolResultMsg r =>
        simp only [mainLoopAux]
        rw [ih rest script _ hr hp]
        simp [userTexts]
      | otherMsg s =>
        simp only [mainLoopAux]
        rw [ih rest script _ hr hp]
        simp [userTexts]

/-! ## Claim C3 -/

/-- Claim C3: a `user_message` read while the agent is blocked waiting for
a `tool_result` is appended to the pending FIFO queue and never discarded
(`_read_tool_result` consumes a prefix of the transport and extends the
queue with exactly the buffered texts, in arrival order); the session
processes every inbound user message through the turn algorithm in arrival
order once the in-flight turn and its chained turns complete (the
processed-turn texts of a whole session equal the inbound `user_message`
texts, in order); and queued messages are processed one at a time (the
turn marks of the session trace are strictly alternating, never nested). -/
theorem C3_pending_fifo_and_replay (ext : AgentExt) :
    (∀ (inbox : List InMsg) (pend : List String),
      ∃ consumed, inbox = consumed ++ (readToolResult inbox pend).inbox ∧
        (readToolResult inbox pend).pend = pend ++ userTexts consumed) ∧
    (∀ (inbox : List InMsg) (script : List ModelResp) (a : AgentSt), a.pend = [] →
      turnStartTexts (mainLoop ext inbox script (some a)) = userTexts inbox) ∧
    (∀ (inbox : List InMsg) (script : List ModelResp) (ag : Option AgentSt),
      wellNested (mainLoop ext inbox script ag) = true) := by
  refine ⟨?_, ?_, ?_⟩
  · intro inbox pend
    obtain ⟨c, h1, h2, _⟩ := readToolResult_stream_spec inbox pend
    exact ⟨c, h1, h2⟩
  · intro inbox script a hp
    exact mainLoopAux_processed ext inbox.length inbox script a (le_refl _) hp
  · intro inbox script ag
    have h := mainLoopAux_wn ext inbox.length inbox script ag []
    simpa [mainLoop, wellNested, wellNestedAux] using h

/-- Witness for C3: a concrete session whose agent starts with an empty
queue processes exactly the inbound user message. -/
theorem C3_witness :
    (freshAgent modelOpus46 []).pend = [] ∧
    turnStartTexts (mainLoop exExt [InMsg.userMessage "hi"] []
        (some (freshAgent modelOpus46 []))) =
      userTexts [InMsg.userMessage "hi"] :=
  ⟨rfl, (C3_pending_fifo_and_replay exExt).2.1 [InMsg.userMessage "hi"] []
    (freshAgent modelOpus46 []) rfl⟩

end Bones
